import Mathlib

/-!
Verification of the goDB durable storage engine (filestore, WAL, recovery,
slotted heap pages, B-tree index) against its natural-language specification.

The Go sources are shallowly embedded: pure fragments become Lean functions,
machine integers become `Nat`/`Int` with explicit `% 2^w` where overflow
matters, byte streams become `List Nat` (each byte `< 256`), and fallible
code returns `Option`.
-/

set_option autoImplicit false

namespace GoDB

/-! ## Values and rows (src/internal/sql: types, `DataType`, `Value`, `Row`)

A Go `sql.Value` is a struct carrying a `Type` discriminant and one payload
field per type; only the field matching `Type` is meaningful, so the struct
is embedded as a sum.  `TypeInt = 0`, `TypeFloat = 1`, `TypeString = 2`,
`TypeBool = 3`, `TypeNull = 4` (iota order).  A Go `float64` payload is
embedded as its IEEE-754 bit pattern (a `Nat < 2^64`): the codec moves the
bits verbatim, and Go `==` on floats is reproduced bit-level by `floatEqGo`
below.  A Go `string` is a byte sequence, embedded as `List Nat`. -/

inductive Value where
  | int (i : Int)
  | float (bits : Nat)
  | str (s : List Nat)
  | bool (b : Bool)
  | null
deriving DecidableEq, Repr

abbrev Row := List Value

/-- Numeric discriminant of a value's `DataType` tag (iota order in types.go). -/
def Value.tag : Value → Nat
  | .int _ => 0
  | .float _ => 1
  | .str _ => 2
  | .bool _ => 3
  | .null => 4

/-- Column of a table schema (`sql.Column`): name and type discriminant. -/
structure Column where
  name : List Nat
  typ : Nat
deriving DecidableEq, Repr

/-! ## Little-endian byte helpers (Go `encoding/binary`, LittleEndian) -/

/-- Little-endian byte list of width `n` for the value `v` (mod `2^(8*n)`). -/
def byteLE : Nat → Nat → List Nat
  | 0, _ => []
  | n + 1, v => v % 256 :: byteLE n (v / 256)

/-- Read a little-endian byte list back into a `Nat`. -/
def fromLE : List Nat → Nat
  | [] => 0
  | b :: bs => b + 256 * fromLE bs

/-- Interpret a `Nat < 2^64` as a two's-complement signed 64-bit integer. -/
def decInt64 (n : Nat) : Int :=
  if n < 2 ^ 63 then (n : Int) else (n : Int) - 2 ^ 64

/-- Two's-complement 64-bit image of an `Int` (what `binary.Write` emits for
an `int64`). -/
def encInt64 (i : Int) : Nat := (i % (2 ^ 64 : Int)).toNat

/-! ## Row codec (src/internal/storage/filestore/format.go)

`writeRow` encodes each value as a one-byte type tag followed by the payload;
`readRow` decodes exactly `numCols` values.  Errors (unknown tag, truncated
input, oversized string) surface as `none`. -/

/-- Encoding of a single value, per the `switch v.Type` in `writeRow`. -/
def writeValue : Value → Option (List Nat)
  | .int i => some (0 :: byteLE 8 (encInt64 i))
  | .float bits => some (1 :: byteLE 8 bits)
  | .str s =>
      if s.length > 0xFFFFFFFF then none
      else some (2 :: (byteLE 4 s.length ++ s.map (· % 256)))
  | .bool b => some (3 :: [if b then 1 else 0])
  | .null => some [4]

/-- Encoding of a row: concatenation of its encoded values (`writeRow`). -/
def writeRowBytes : Row → Option (List Nat)
  | [] => some []
  | v :: vs => do
      let b ← writeValue v
      let rest ← writeRowBytes vs
      pure (b ++ rest)

/-- Take exactly `n` bytes from the stream, or fail. -/
def readBytes (n : Nat) (bs : List Nat) : Option (List Nat × List Nat) :=
  if n ≤ bs.length then some (bs.take n, bs.drop n) else none

/-- Decoding of a single value, per the `switch vt` in `readRow`. -/
def readValue : List Nat → Option (Value × List Nat)
  | [] => none
  | t :: rest =>
      if t = 0 then
        match readBytes 8 rest with
        | some (p, r) => some (.int (decInt64 (fromLE p)), r)
        | none => none
      else if t = 1 then
        match readBytes 8 rest with
        | some (p, r) => some (.float (fromLE p), r)
        | none => none
      else if t = 2 then
        match readBytes 4 rest with
        | some (p, r) =>
            match readBytes (fromLE p) r with
            | some (s, r2) => some (.str s, r2)
            | none => none
        | none => none
      else if t = 3 then
        match readBytes 1 rest with
        | some (p, r) => some (.bool (decide (p.headI ≠ 0)), r)
        | none => none
      else if t = 4 then
        some (.null, rest)
      else
        none

/-- Decoding of a row with a caller-supplied column count (`readRow`). -/
def readRowBytes : Nat → List Nat → Option (Row × List Nat)
  | 0, bs => some ([], bs)
  | n + 1, bs => do
      let (v, r) ← readValue bs
      let (vs, r2) ← readRowBytes n r
      pure (v :: vs, r2)

/-- Machine-level well-formedness of a value: the constraints Go's types give
for free (an `int64` payload is in range, a `float64` bit pattern fits 64
bits, string bytes are bytes and the length fits the `uint32` prefix). -/
def Value.wf : Value → Prop
  | .int i => -(2 ^ 63) ≤ i ∧ i < 2 ^ 63
  | .float bits => bits < 2 ^ 64
  | .str s => s.length ≤ 0xFFFFFFFF ∧ ∀ b ∈ s, b < 256
  | .bool _ => True
  | .null => True

instance : DecidablePred Value.wf := by
  intro v
  unfold Value.wf
  cases v <;> infer_instance

/-! ## Slotted heap page (src/internal/storage/filestore/page.go)

A heap page is a 4096-byte buffer; the embedding keeps the decoded header
fields (`numSlots`, `freeStart`), the slot directory as a total cell store
(Go reads zeroed bytes as `(0, 0)` in untouched cells), and the row-area
bytes.  All stored header/slot quantities are `uint16`, so writes are
reduced `% 65536`. -/

/-- Page size shared by heap and B-tree pages. -/
def pageSize : Nat := 4096

/-- Decoded view of a heap page (`pageBuf` plus its header accessors). -/
structure Page where
  numSlots : Nat
  freeStart : Nat
  slots : Nat → Nat × Nat
  data : Nat → Nat

/-- Fresh heap page: zeroed buffer, `numSlots = 0`, `freeStart = 16`
(`newEmptyHeapPage`; the page id and magic play no role in the claims). -/
def newEmptyHeapPage : Page :=
  { numSlots := 0, freeStart := 16, slots := fun _ => (0, 0), data := fun _ => 0 }

/-- Write slot cell `i` (`setSlot`); stored as two `uint16` fields. -/
def Page.setSlot (p : Page) (i off len : Nat) : Page :=
  { p with slots := fun j => if j = i then (off % 65536, len % 65536) else p.slots j }

/-- Copy `rowBytes` into the data area starting at `start`
(the `copy(p[freeStart:...], rowBytes)` in `insertRow`). -/
def Page.writeData (p : Page) (start : Nat) (rowBytes : List Nat) : Page :=
  { p with data := fun j =>
      if start ≤ j ∧ j - start < rowBytes.length then rowBytes.getD (j - start) 0 % 256
      else p.data j }

/-- First reusable tombstone slot, scanning `0 ..< numSlots` (`insertRow`). -/
def Page.firstTombstone (p : Page) : Option Nat :=
  (List.range p.numSlots).find? (fun i => p.slots i = (65535, 0))

/-- Try to place an encoded row into the page (`insertRow`).  Returns the
slot id and the updated page, or `none` for the `page: not enough free
space` error.  `rowLen` is `uint16(len(rowBytes))`; Go's space check is on
`int`s, embedded over `Int`. -/
def Page.insertRow (p : Page) (rowBytes : List Nat) : Option (Nat × Page) :=
  let nSlots := p.numSlots
  let fs := p.freeStart
  let rowLen := rowBytes.length % 65536
  let reuseSlot := p.firstTombstone
  let needed := rowLen + (if reuseSlot.isNone then 4 else 0)
  let freeEnd : Int := (pageSize : Int) - (nSlots : Int) * 4
  if (fs : Int) + (needed : Int) > freeEnd then none
  else
    let p1 := p.writeData fs rowBytes
    let slotIdx := reuseSlot.getD nSlots
    let p2 := if reuseSlot.isNone then { p1 with numSlots := nSlots + 1 } else p1
    let p3 := p2.setSlot slotIdx fs rowLen
    some (slotIdx, { p3 with freeStart := (fs + rowLen) % 65536 })

/-- One pass of the `freeStart` rewind in `deleteSlot`: scan every slot; a
live slot whose end (`uint16` sum) equals the current candidate rewinds the
candidate to its offset and marks progress. -/
def Page.rewindPass (p : Page) (nfs : Nat) : Nat × Bool :=
  (List.range p.numSlots).foldl
    (fun acc idx =>
      let c := p.slots idx
      if c.1 = 65535 ∨ c.2 = 0 then acc
      else if (c.1 + c.2) % 65536 = acc.1 then (c.1, true) else acc)
    (nfs, false)

/-- Outer rewind loop of `deleteSlot`: repeat passes while one progressed.
Go's loop can diverge on corrupt slot contents; the fuel (65536 passes, one
per possible `freeStart` value) covers every terminating execution reachable
from a fresh page. -/
def Page.rewindLoop (p : Page) : Nat → Nat → Nat
  | 0, nfs => nfs
  | fuel + 1, nfs =>
      let r := p.rewindPass nfs
      if r.2 then p.rewindLoop fuel r.1 else r.1

/-- Trailing-tombstone trim at the end of `deleteSlot`: decrement `numSlots`
while the last slot is a tombstone. -/
def trimTrailing (slots : Nat → Nat × Nat) : Nat → Nat
  | 0 => 0
  | n + 1 => if slots n = (65535, 0) then trimTrailing slots n else n + 1

/-- Tombstone slot `i`, reclaim tail space, trim trailing tombstones
(`deleteSlot`). -/
def Page.deleteSlot (p : Page) (i : Nat) : Page :=
  let off := (p.slots i).1
  let len := (p.slots i).2
  let p1 := p.setSlot i 65535 0
  let p2 :=
    if off ≠ 65535 ∧ len ≠ 0 ∧ (off + len) % 65536 = p.freeStart then
      { p1 with freeStart := p1.rewindLoop 65536 off }
    else p1
  { p2 with numSlots := trimTrailing p2.slots p2.numSlots }

/-- Slot ids visited with a row by `iterateRows`: slots in `0 ..< numSlots`
that are neither tombstoned nor empty. -/
def Page.liveSlots (p : Page) : List Nat :=
  (List.range p.numSlots).filter (fun i => (p.slots i).1 ≠ 65535 ∧ (p.slots i).2 ≠ 0)

/-- Heap-page header invariant claimed by the spec:
`freeStart ≤ PageSize - 4*numSlots`, stated additively over `Nat`. -/
def Page.headerInv (p : Page) : Prop :=
  p.freeStart + 4 * p.numSlots ≤ pageSize

/-- States of a heap page reachable from a fresh page by successful
`insertRow` calls and `deleteSlot` calls on existing slots (the only callers,
`DeleteWhere`/`UpdateWhere`, pass slot ids below `numSlots`). -/
inductive Page.Reachable : Page → Prop
  | fresh : Page.Reachable newEmptyHeapPage
  | insert {p : Page} {bs : List Nat} {s : Nat} {p' : Page} :
      Page.Reachable p → p.insertRow bs = some (s, p') → Page.Reachable p'
  | delete {p : Page} {i : Nat} :
      Page.Reachable p → i < p.numSlots → Page.Reachable (p.deleteSlot i)

/-! ## Value equality used by recovery (`equalRow` in recovery.go)

`equalRow` compares rows value-wise on the payload selected by the type tag.
Go `==` on `float64` is reproduced on bit patterns: NaN equals nothing
(including itself) and `+0.0 == -0.0`. -/

/-- NaN test on an IEEE-754 double bit pattern: exponent all ones, nonzero
mantissa. -/
def floatIsNaN (bits : Nat) : Bool :=
  decide ((bits / 2 ^ 52) % 2 ^ 11 = 2047) && decide (bits % 2 ^ 52 ≠ 0)

/-- Go `==` on two `float64` bit patterns. -/
def floatEqGo (a b : Nat) : Bool :=
  if floatIsNaN a || floatIsNaN b then false
  else decide (a = b) || (decide (a % 2 ^ 63 = 0) && decide (b % 2 ^ 63 = 0))

/-- Value comparison of `equalRow`: tags must match, then the active payload
is compared (`Null` equals `Null`). -/
def valueEqGo : Value → Value → Bool
  | .int a, .int b => decide (a = b)
  | .float a, .float b => floatEqGo a b
  | .str a, .str b => decide (a = b)
  | .bool a, .bool b => decide (a = b)
  | .null, .null => true
  | _, _ => false

/-- Row comparison of `equalRow`: equal length and pairwise `valueEqGo`. -/
def equalRowGo : Row → Row → Bool
  | [], [] => true
  | a :: as, b :: bs => valueEqGo a b && equalRowGo as bs
  | _, _ => false

/-! ## WAL records and recovery (wal.go, recovery.go)

Recovery parses the WAL byte stream into records; the embedding works at the
record level (`recType`, `txID`, and for data records the table name and the
decoded rows, exactly the fields `recoverFromWAL` extracts). -/

inductive WalOpType where
  | ins
  | rep
  | del
  | upd
deriving DecidableEq, Repr

/-- One data operation accumulated per transaction (`walOp`). -/
structure WalOp where
  typ : WalOpType
  table : String
  rows : List Row
deriving DecidableEq, Repr

/-- One parsed WAL record (`recType`/`txID` plus data payload). -/
inductive WalRec where
  | begin (tx : Nat)
  | commit (tx : Nat)
  | rollback (tx : Nat)
  | data (typ : WalOpType) (tx : Nat) (table : String) (rows : List Row)
deriving DecidableEq, Repr

/-- Per-transaction parse state (`walTxState`; `order` is the position in
the first-seen list). -/
structure TxSt where
  ops : List WalOp
  committed : Bool
  rolled : Bool
deriving DecidableEq, Repr

/-- Initial per-transaction state created by `getTx`. -/
def TxSt.init : TxSt := { ops := [], committed := false, rolled := false }

/-- Look up a transaction id in the first-seen-ordered state list,
appending a fresh state when absent (`getTx`). -/
def getTxSt (l : List (Nat × TxSt)) (id : Nat) : List (Nat × TxSt) :=
  if (l.lookup id).isSome then l else l ++ [(id, TxSt.init)]

/-- Update the state stored for `id`. -/
def updTxSt (l : List (Nat × TxSt)) (id : Nat) (f : TxSt → TxSt) : List (Nat × TxSt) :=
  l.map (fun p => if p.1 = id then (p.1, f p.2) else p)

/-- Fold one WAL record into the per-transaction states (the parse loop of
`recoverFromWAL`, step 3). -/
def parseStep (l : List (Nat × TxSt)) : WalRec → List (Nat × TxSt)
  | .begin tx => getTxSt l tx
  | .commit tx => updTxSt (getTxSt l tx) tx (fun s => { s with committed := true })
  | .rollback tx => updTxSt (getTxSt l tx) tx (fun s => { s with rolled := true })
  | .data ty tx table rows =>
      updTxSt (getTxSt l tx) tx (fun s => { s with ops := s.ops ++ [⟨ty, table, rows⟩] })

/-- Per-transaction states in first-seen order after parsing the whole WAL. -/
def parseWalStates (wal : List WalRec) : List (Nat × TxSt) :=
  wal.foldl parseStep []

/-- In-memory rebuilt contents, one row list per table (`rowsByTable`; a Go
map read defaults to `nil`, embedded as a total function defaulting to
`[]`). -/
def TableMap : Type := String → List Row

/-- Point update of a table map. -/
def TableMap.set (m : TableMap) (t : String) (rows : List Row) : TableMap :=
  fun u => if u = t then rows else m u

/-- Empty rebuilt contents (every table truncated back to its header). -/
def TableMap.empty : TableMap := fun _ => []

/-- Remove the first row `equalRow`-equal to `d` (the inner delete loop of
recovery step 4). -/
def removeFirstRow : List Row → Row → List Row
  | [], _ => []
  | r :: rs, d => if equalRowGo r d then rs else r :: removeFirstRow rs d

/-- Replace the first row `equalRow`-equal to `old` by `new` (the inner
update loop of recovery step 4). -/
def replaceFirstRow : List Row → Row → Row → List Row
  | [], _, _ => []
  | r :: rs, old, new =>
      if equalRowGo r old then new :: rs else r :: replaceFirstRow rs old new

/-- Split an even-length row list into consecutive `(old, new)` pairs. -/
def chunkPairs : List Row → List (Row × Row)
  | a :: b :: rest => (a, b) :: chunkPairs rest
  | _ => []

/-- Apply one accumulated operation to the rebuilt contents (the `switch
op.typ` of recovery step 4).  An UPDATE op with an odd row count is the
`update op has odd rows length` corruption error. -/
def applyWalOp (m : TableMap) (op : WalOp) : Option TableMap :=
  match op.typ with
  | .ins => some (m.set op.table (m op.table ++ op.rows))
  | .rep => some (m.set op.table op.rows)
  | .del => some (m.set op.table (op.rows.foldl removeFirstRow (m op.table)))
  | .upd =>
      if op.rows.length % 2 ≠ 0 then none
      else
        some (m.set op.table
          ((chunkPairs op.rows).foldl (fun cur pr => replaceFirstRow cur pr.1 pr.2)
            (m op.table)))

/-- Apply a transaction's operations in order. -/
def applyWalOps (m : TableMap) : List WalOp → Option TableMap
  | [] => some m
  | op :: rest =>
      match applyWalOp m op with
      | some m2 => applyWalOps m2 rest
      | none => none

/-- Replay loop of recovery step 4: walk transactions in first-seen order,
applying those with a COMMIT and no ROLLBACK. -/
def replayStates (m : TableMap) : List (Nat × TxSt) → Option TableMap
  | [] => some m
  | p :: rest =>
      if p.2.committed && !p.2.rolled then
        match applyWalOps m p.2.ops with
        | some m2 => replayStates m2 rest
        | none => none
      else replayStates m rest

/-- Rebuilt per-table contents produced by `recoverFromWAL` (steps 3-4);
step 5 writes exactly `m t` into table `t` via the non-logging `ReplaceAll`
path, and step 2 truncated every other table to empty. -/
def recoverMap (wal : List WalRec) : Option TableMap :=
  replayStates TableMap.empty (parseWalStates wal)

/-! ## Claim-side recovery descriptions (for the refinement claims about
recovery).  These follow the words of the specification, to be compared
against `recoverMap` above. -/

/-- Transaction id carried by a record. -/
def WalRec.txId : WalRec → Nat
  | .begin tx => tx
  | .commit tx => tx
  | .rollback tx => tx
  | .data _ tx _ _ => tx

/-- Transaction ids in order of first appearance in the WAL. -/
def txFirstSeen (wal : List WalRec) : List Nat :=
  wal.foldl (fun acc r => if r.txId ∈ acc then acc else acc ++ [r.txId]) []

/-- Whether the WAL holds a COMMIT record for `id`. -/
def txHasCommit (wal : List WalRec) (id : Nat) : Bool :=
  wal.any (fun r => match r with | .commit tx => decide (tx = id) | _ => false)

/-- Whether the WAL holds a ROLLBACK record for `id`. -/
def txHasRollback (wal : List WalRec) (id : Nat) : Bool :=
  wal.any (fun r => match r with | .rollback tx => decide (tx = id) | _ => false)

/-- Data operations of transaction `id`, in WAL order. -/
def txDataOps (wal : List WalRec) (id : Nat) : List WalOp :=
  wal.filterMap (fun r =>
    match r with
    | .data ty tx table rows => if tx = id then some ⟨ty, table, rows⟩ else none
    | _ => none)

/-- Claim-side replay: onto empty tables, apply exactly the operations of
transactions that have a COMMIT record and no ROLLBACK record, transaction
by transaction in order of first appearance in the WAL. -/
def specReplayFirstSeen (wal : List WalRec) : Option TableMap :=
  ((txFirstSeen wal).filter
      (fun id => txHasCommit wal id && !txHasRollback wal id)).foldl
    (fun acc id =>
      match acc with
      | some m => applyWalOps m (txDataOps wal id)
      | none => none)
    (some TableMap.empty)

/-- Transaction ids in the order of their first COMMIT record in the WAL
(the serialization order asserted by the claim). -/
def txCommitOrder (wal : List WalRec) : List Nat :=
  wal.foldl
    (fun acc r =>
      match r with
      | .commit tx => if tx ∈ acc then acc else acc ++ [tx]
      | _ => acc)
    []

/-- Claim-side replay in COMMIT-record order: apply the operations of each
committed, not rolled-back transaction, ordered by the position of its
COMMIT record. -/
def specReplayCommitOrder (wal : List WalRec) : Option TableMap :=
  ((txCommitOrder wal).filter (fun id => !txHasRollback wal id)).foldl
    (fun acc id =>
      match acc with
      | some m => applyWalOps m (txDataOps wal id)
      | none => none)
    (some TableMap.empty)

/-! ## Engine transaction lifecycle (filestore.go: `New`, `Begin`, `Commit`,
`Rollback`)

`New` opens the directory: the WAL is opened for append (never truncated)
and `nextTxID` starts at 1.  `Begin(false)` mints a TxID and appends BEGIN;
`Commit`/`Rollback` refuse a closed transaction, otherwise append their
record and mark it closed.  A session is a sequence of such calls against
one open engine; write transactions are tracked as `(id, closed)` pairs in
creation order. -/

structure EngSt where
  nextTxID : Nat
  wal : List WalRec
  txs : List (Nat × Bool)
deriving DecidableEq, Repr

/-- Engine state right after `New(dir)`: `nextTxID = 1`, WAL kept as found
on disk (recovery reads it but never rewrites it). -/
def engOpen (wal : List WalRec) : EngSt :=
  { nextTxID := 1, wal := wal, txs := [] }

/-- One engine call in a session: begin a write transaction, or commit or
roll back the `i`-th transaction begun in this session. -/
inductive SessEvent where
  | beginW
  | commitW (i : Nat)
  | rollbackW (i : Nat)
deriving DecidableEq, Repr

/-- Transition of one engine call.  `Begin(false)` mints `nextTxID` under
the mutex, increments it, and appends BEGIN.  `Commit`/`Rollback` validate
the transaction (`validateTx` rejects a closed one, appending nothing),
then append their record and set `closed = true`. -/
def stepEvent (s : EngSt) : SessEvent → EngSt
  | .beginW =>
      { nextTxID := s.nextTxID + 1,
        wal := s.wal ++ [.begin s.nextTxID],
        txs := s.txs ++ [(s.nextTxID, false)] }
  | .commitW i =>
      match s.txs[i]? with
      | some (id, false) =>
          { s with wal := s.wal ++ [.commit id], txs := s.txs.set i (id, true) }
      | _ => s
  | .rollbackW i =>
      match s.txs[i]? with
      | some (id, false) =>
          { s with wal := s.wal ++ [.rollback id], txs := s.txs.set i (id, true) }
      | _ => s

/-- Run one session (one engine open followed by a list of calls) against
the WAL found on disk. -/
def runSession (wal : List WalRec) (evs : List SessEvent) : EngSt :=
  evs.foldl stepEvent (engOpen wal)

/-- WAL contents after several opens of the same directory, each running a
list of calls. -/
def runSessions (sessions : List (List SessEvent)) : List WalRec :=
  sessions.foldl (fun w evs => (runSession w evs).wal) []

/-- Number of COMMIT records carrying `id`. -/
def countCommits (wal : List WalRec) (id : Nat) : Nat :=
  (wal.filter (fun r => match r with | .commit tx => decide (tx = id) | _ => false)).length

/-- Number of ROLLBACK records carrying `id`. -/
def countRollbacks (wal : List WalRec) (id : Nat) : Nat :=
  (wal.filter (fun r => match r with | .rollback tx => decide (tx = id) | _ => false)).length

/-- Records a session appended to the WAL it found on disk. -/
def sessionRecords (w0 : List WalRec) (evs : List SessEvent) : List WalRec :=
  (runSession w0 evs).wal.drop w0.length

/-! ## Table files and the transactional Insert (tx.go)

A table file is its schema header plus zero or more heap pages; the Insert
embedded here is the page-based `fileTx.Insert`, which appends the WAL
INSERT record before reading the header and checking the row length. -/

/-- Modelled from the spec: `encodeRowToBytes` is used by tx.go and page.go
but its definition is not under src/; per §4.1 a row encodes as the
column-ordered concatenation of its values, i.e. `writeRow` into a byte
buffer. -/
def encodeRowToBytes (r : Row) : Option (List Nat) := writeRowBytes r

/-- Modelled from the spec: `readRowFromBytes` (used by `iterateRows`) is
not under src/; per §4.1 it decodes exactly `numCols` values from the
record's bytes. -/
def readRowFromBytes (bs : List Nat) (numCols : Nat) : Option Row :=
  match readRowBytes numCols bs with
  | some (r, _) => some r
  | none => none

/-- On-disk table file: schema header plus data pages. -/
structure TableFile where
  cols : List Column
  pages : List Page

/-- Result of a transactional operation: the WAL afterwards, the table file
afterwards, and either an error or the `(pageID, slotID)` of the new row. -/
structure InsertResult where
  wal : List WalRec
  tfile : TableFile
  res : Except String (Nat × Nat)

/-- Page-based `fileTx.Insert` (tx.go).  Order of steps as in the code:
closed/read-only guards; append the INSERT record to the WAL (for a write
transaction with a nonzero id); open the file and read the header; check
the row length against the schema; encode the row; place it into the last
page or a fresh page. -/
def insertTx (closed readOnly : Bool) (txid : Nat) (wal : List WalRec)
    (tname : String) (tf : TableFile) (row : Row) : InsertResult :=
  if closed then ⟨wal, tf, .error "filestore: tx is closed"⟩
  else if readOnly then
    ⟨wal, tf, .error "filestore: cannot insert in read-only transaction"⟩
  else
    let wal1 := if !readOnly && txid ≠ 0 then wal ++ [.data .ins txid tname [row]] else wal
    if row.length ≠ tf.cols.length then
      ⟨wal1, tf, .error "filestore: row length mismatch"⟩
    else
      match encodeRowToBytes row with
      | none => ⟨wal1, tf, .error "filestore: encode row"⟩
      | some rowBytes =>
          match tf.pages.getLast? with
          | none =>
              match newEmptyHeapPage.insertRow rowBytes with
              | some (slot, p) => ⟨wal1, { tf with pages := [p] }, .ok (0, slot)⟩
              | none => ⟨wal1, tf, .error "filestore: insert into empty page"⟩
          | some lastPage =>
              match lastPage.insertRow rowBytes with
              | some (slot, p) =>
                  ⟨wal1, { tf with pages := tf.pages.dropLast ++ [p] },
                    .ok (tf.pages.length - 1, slot)⟩
              | none =>
                  match newEmptyHeapPage.insertRow rowBytes with
                  | some (slot, p) =>
                      ⟨wal1, { tf with pages := tf.pages ++ [p] },
                        .ok (tf.pages.length, slot)⟩
                  | none => ⟨wal1, tf, .error "filestore: insert into new page"⟩

/-! ## Row buffers and the UpdateWhere pre-image (tx.go: `UpdateWhere`,
`cloneRow`)

Go rows are mutable slices; `UpdateWhere` guards the WAL pre-image against
updaters that mutate the slice they are handed by cloning twice:
`origRow := cloneRow(oldRow)` is logged, and the updater receives a second
clone.  The embedding makes slice identity explicit with a buffer store. -/

/-- Store of live row buffers; a buffer id is an index. -/
structure BufHeap where
  bufs : List Row
deriving DecidableEq, Repr

/-- Allocate a fresh buffer holding `r` (what `cloneRow` does: a new slice
with the values copied). -/
def BufHeap.alloc (h : BufHeap) (r : Row) : BufHeap × Nat :=
  (⟨h.bufs ++ [r]⟩, h.bufs.length)

/-- Current contents of buffer `i`. -/
def BufHeap.read (h : BufHeap) (i : Nat) : Row :=
  h.bufs.getD i []

/-- In-place write of element `j` of buffer `i` (a Go `row[j] = v`). -/
def BufHeap.write (h : BufHeap) (i j : Nat) (v : Value) : BufHeap :=
  ⟨h.bufs.set i ((h.bufs.getD i []).set j v)⟩

/-- A Go updater as observed by `UpdateWhere`: `muts` lists the in-place
writes it performs on the row slice it is handed (as a function of that
row's contents at call time), and `ret` is the row value it returns. -/
structure GoUpdater where
  muts : Row → List (Nat × Value)
  ret : Row → Row

/-- Run the updater against buffer `b`: perform its in-place writes there
and produce its return value. -/
def callUpdater (h : BufHeap) (b : Nat) (u : GoUpdater) : BufHeap × Row :=
  let arg := h.read b
  ((u.muts arg).foldl (fun acc mv => acc.write b mv.1 mv.2) h, u.ret arg)

/-- Per-row body of `UpdateWhere` for a matching row, from the clone of the
decoded row up to the WAL append: `origRow := cloneRow(oldRow)`; call the
updater on `cloneRow(oldRow)`; encode; if the new bytes fit the slot, log
`UPDATE (origRow, newRow)`, else log `DELETE origRow` (grow path).  Returns
the WAL record appended, or `none` if encoding failed. -/
def updateWhereLogRec (h : BufHeap) (oldBuf : Nat) (u : GoUpdater)
    (txid : Nat) (tname : String) (slotLen : Nat) : Option WalRec :=
  let a1 := h.alloc (h.read oldBuf)
  let h1 := a1.1
  let origBuf := a1.2
  let a2 := h1.alloc (h1.read oldBuf)
  let h2 := a2.1
  let argBuf := a2.2
  let c := callUpdater h2 argBuf u
  let h3 := c.1
  let newRow := c.2
  match encodeRowToBytes newRow with
  | none => none
  | some newBytes =>
      if newBytes.length ≤ slotLen then
        some (.data .upd txid tname [h3.read origBuf, newRow])
      else
        some (.data .del txid tname [h3.read origBuf])

/-- Pre-image row carried by an UPDATE or DELETE record (the first row of
the payload). -/
def preImageOf : Option WalRec → Option Row
  | some (.data .upd _ _ (old :: _)) => some old
  | some (.data .del _ _ (old :: _)) => some old
  | _ => none

/-! ## Directory state and CreateTable (filestore.go: `CreateTable`;
format.go: `writeHeader`) -/

/-- Header bytes for a schema (`writeHeader`): magic `GODB1`, `numCols` as
`u16`, then per column `u16` name length, name bytes, `u8` type.  Fails if
there are more than 65535 columns or a column name longer than 65535
bytes. -/
def writeHeaderBytes (cols : List Column) : Option (List Nat) :=
  if cols.length > 0xFFFF then none
  else
    cols.foldl
      (fun acc c =>
        match acc with
        | none => none
        | some bs =>
            if c.name.length > 0xFFFF then none
            else some (bs ++ byteLE 2 c.name.length ++ c.name.map (· % 256) ++ [c.typ % 256]))
      (some ([71, 79, 68, 66, 49] ++ byteLE 2 cols.length))

/-- Database directory contents relevant to DDL: the `<name>.godb` files
with their schemas. -/
abbrev DirFS : Type := List (String × List Column)

/-- Table enumeration (`ListTables`): the `.godb` file names. -/
def listTables (fs : DirFS) : List String := fs.map (·.1)

/-- Result of `CreateTable`: the directory afterwards plus success flag. -/
structure CreateResult where
  fs : DirFS
  ok : Bool
deriving DecidableEq

/-- `CreateTable`: fail if the file exists; otherwise create it with
`O_EXCL`, write the header, and — if writing the header fails — remove the
partially created file before returning the error. -/
def createTable (fs : DirFS) (name : String) (cols : List Column) : CreateResult :=
  if (fs.lookup name).isSome then ⟨fs, false⟩
  else
    match writeHeaderBytes cols with
    | none => ⟨fs, false⟩
    | some _ => ⟨fs ++ [(name, cols)], true⟩

/-! ## B-tree index (src/unnamed: the btree package's `fileIndex`)

Pages are embedded at the entry level: a leaf holds its `(key, rid)` list, an
internal page its child-pointer and separator-key lists.  The byte accessors
(`leafGetKey`, `leafSetEntry`, `readPageHeader`, `internalReadAll`, ...) are
not under src/; per the spec's §4.6 page layout they read and write exactly
these fields, so the page abstraction below models them from the spec while
`Insert`, `Search` and `insertIntoParent` are translated from the source. -/

abbrev BKey := Int

/-- Record id stored in a leaf entry (`btree.RID`). -/
structure RID where
  pageID : Nat
  slotID : Nat
deriving DecidableEq, Repr

/-- Modelled from the spec: one B-tree page, decoded per the §4.6 layout
(`pageType`, `numKeys`, then leaf entries or interleaved children/keys). -/
inductive BtPage where
  | leaf (entries : List (BKey × RID))
  | internal (children : List Nat) (keys : List BKey)
deriving DecidableEq, Repr

/-- In-memory index handle plus its file's pages (`fileIndex`; page `i`
lives at offset `header + i * PageSize`, so the file is a page list). -/
structure BtIndex where
  rootPageID : Nat
  pageCount : Nat
  pages : List BtPage
deriving DecidableEq, Repr

/-- Index state created by `OpenFileIndex` on a fresh file: one empty leaf
root, `rootPageID = 0`, `pageCount = 1`. -/
def btEmpty : BtIndex :=
  { rootPageID := 0, pageCount := 1, pages := [.leaf []] }

/-- Leaf capacity `maxLeafKeys = (PageSize - 16) / leafEntrySize` (= 255). -/
def maxLeafKeys : Nat := (pageSize - 16) / 16

/-- Internal capacity `maxInternalKeys = (PageSize - 16 - 4) / 12` (= 339). -/
def maxInternalKeys : Nat := (pageSize - 16 - 4) / 12

/-- Overwrite page `i` (`writePage`). -/
def BtIndex.setPage (idx : BtIndex) (i : Nat) (p : BtPage) : BtIndex :=
  { idx with pages := idx.pages.set i p }

/-- Child index chosen during descent: smallest `i` with `key < keys[i]`,
else `keys.length` (the loop in `findLeafForKeyWithPath` and
`findLeafForKey`). -/
def childIndexFor (key : BKey) : List BKey → Nat
  | [] => 0
  | k :: rest => if key < k then 0 else childIndexFor key rest + 1

/-- Descent from the root recording the page-id path
(`findLeafForKeyWithPath`).  Fuel bounds the walk: Go's loop would cycle on
a corrupt page graph; `pages.length + 1` covers every acyclic descent.
Errors (missing page, empty internal node, dangling child) are `none`. -/
def findLeafPath (idx : BtIndex) (key : BKey) :
    Nat → Nat → List Nat → Option (Nat × List (BKey × RID) × List Nat)
  | 0, _, _ => none
  | fuel + 1, pageID, path =>
      match idx.pages.get? pageID with
      | none => none
      | some (.leaf es) => some (pageID, es, path ++ [pageID])
      | some (.internal children keys) =>
          if keys.length = 0 then none
          else
            match children.get? (childIndexFor key keys) with
            | none => none
            | some c => findLeafPath idx key fuel c (path ++ [pageID])

/-- Insert position in a leaf: first index whose key is strictly greater
(the `pos` loop in `Insert`), placing duplicates after their equals. -/
def leafInsertPos (key : BKey) : List (BKey × RID) → Nat
  | [] => 0
  | e :: rest => if key < e.1 then 0 else leafInsertPos key rest + 1

/-- Insert `a` at position `n` of a list (the shift-and-set in `Insert`). -/
def listInsertAt {α : Type} (n : Nat) (a : α) (l : List α) : List α :=
  l.take n ++ a :: l.drop n

/-- Stable insertion of one entry into a key-sorted list: past the entries
with strictly smaller keys, before any entry with an equal key (which stood
later in the original slice). -/
def stableInsertEntry (e : BKey × RID) : List (BKey × RID) → List (BKey × RID)
  | [] => [e]
  | f :: rest => if f.1 < e.1 then f :: stableInsertEntry e rest else e :: f :: rest

/-- Stable sort by key of the merged entry list (`sort.SliceStable` on
`entries[i].k < entries[j].k`): insertion sort from the right, each element
landing before equal keys that came later in the slice — the unique
key-sorted permutation preserving the relative order of equal keys, which
is what a stable sort returns. -/
def stableSortEntries : List (BKey × RID) → List (BKey × RID)
  | [] => []
  | e :: rest => stableInsertEntry e (stableSortEntries rest)

/-- Split-and-propagate after a leaf split (`insertIntoParent`): a new
internal root when the leaf was the root, otherwise insert the separator
and right child into the parent, failing (`none`) when the parent is full
(internal splits are not implemented) or on a corrupt parent. -/
def insertIntoParent (idx : BtIndex) (leftID rightID : Nat) (sep : BKey)
    (path : List Nat) : Option BtIndex :=
  if path.length = 1 then
    let rootID := idx.pageCount
    let idx1 : BtIndex :=
      { idx with pages := idx.pages ++ [.internal [] []], pageCount := idx.pageCount + 1 }
    some { idx1.setPage rootID (.internal [leftID, rightID] [sep]) with rootPageID := rootID }
  else
    match path.get? (path.length - 2) with
    | none => none
    | some parentID =>
        match idx.pages.get? parentID with
        | some (.internal children keys) =>
            match children.indexOf? leftID with
            | none => none
            | some pos =>
                if keys.length ≥ maxInternalKeys then none
                else
                  some (idx.setPage parentID
                    (.internal (listInsertAt (pos + 1) rightID children)
                      (listInsertAt pos sep keys)))
        | _ => none

/-- `fileIndex.Insert`: descend with path; fast-path sorted insert when the
leaf has room; otherwise merge, stable-sort, split at `total / 2`, write the
left half back, allocate the right leaf (`allocPage` appends it at page id
`pageCount`), and propagate `right.keys[0]` upward. -/
def btInsert (idx : BtIndex) (key : BKey) (rid : RID) : Option BtIndex :=
  match findLeafPath idx key (idx.pages.length + 1) idx.rootPageID [] with
  | none => none
  | some (leafID, es, path) =>
      if es.length < maxLeafKeys then
        some (idx.setPage leafID (.leaf (listInsertAt (leafInsertPos key es) (key, rid) es)))
      else
        let entries := stableSortEntries (es ++ [(key, rid)])
        let split := entries.length / 2
        let leftE := entries.take split
        let rightE := entries.drop split
        match rightE.head? with
        | none => none
        | some hd =>
            let idx1 := idx.setPage leafID (.leaf leftE)
            let rightID := idx1.pageCount
            let idx2 : BtIndex :=
              { idx1 with pages := idx1.pages ++ [.leaf []], pageCount := idx1.pageCount + 1 }
            let idx3 := idx2.setPage rightID (.leaf rightE)
            insertIntoParent idx3 leafID rightID hd.1 path

/-- Key at index `i` of a leaf's entries (`leafGetKey`; in-range by the
callers). -/
def leafKeyAt (es : List (BKey × RID)) (i : Nat) : BKey :=
  (es.getD i (0, ⟨0, 0⟩)).1

/-- Binary search of `Search`: first position in `[lo, hi)` holding a key
`≥ key` on a sorted leaf. -/
def bsearchLo (es : List (BKey × RID)) (key : BKey) (lo hi : Nat) : Nat :=
  if h : lo < hi then
    let mid := (lo + hi) / 2
    if key > leafKeyAt es mid then bsearchLo es key (mid + 1) hi
    else bsearchLo es key lo mid
  else lo
termination_by hi - lo
decreasing_by
  all_goals simp_wf
  all_goals omega

/-- Collection loop of `Search`: from `i` upward, take RIDs while the key
matches. -/
def collectEqFrom (es : List (BKey × RID)) (key : BKey) (i : Nat) : List RID :=
  if h : i < es.length then
    if leafKeyAt es i = key then (es.getD i (0, ⟨0, 0⟩)).2 :: collectEqFrom es key (i + 1)
    else []
  else []
termination_by es.length - i
decreasing_by
  simp_wf
  omega

/-- Descent without path (`findLeafForKey`; same choice rule as the path
variant). -/
def findLeaf (idx : BtIndex) (key : BKey) : Nat → Nat → Option (List (BKey × RID))
  | 0, _ => none
  | fuel + 1, pageID =>
      match idx.pages.get? pageID with
      | none => none
      | some (.leaf es) => some es
      | some (.internal children keys) =>
          if keys.length = 0 then none
          else
            match children.get? (childIndexFor key keys) with
            | none => none
            | some c => findLeaf idx key fuel c

/-- `fileIndex.Search`: descend to the leaf, binary-search the first entry
`≥ key`, collect the equal run. -/
def btSearch (idx : BtIndex) (key : BKey) : Option (List RID) :=
  match findLeaf idx key (idx.pages.length + 1) idx.rootPageID with
  | none => none
  | some es => some (collectEqFrom es key (bsearchLo es key 0 es.length))

/-- Build an index by inserting a sequence of `(key, rid)` pairs in order. -/
def btBuild : BtIndex → List (BKey × RID) → Option BtIndex
  | idx, [] => some idx
  | idx, e :: rest =>
      match btInsert idx e.1 e.2 with
      | some idx2 => btBuild idx2 rest
      | none => none

/-- Keys of a pair sequence are strictly ascending. -/
def strictAscKeys : List (BKey × RID) → Bool
  | [] => true
  | [_] => true
  | a :: b :: rest => decide (a.1 < b.1) && strictAscKeys (b :: rest)

/-- RIDs inserted with key `k`, in insertion order. -/
def ridsOfKey (seq : List (BKey × RID)) (k : BKey) : List RID :=
  (seq.filter (fun e => e.1 = k)).map (·.2)

/-- Data record of transaction `tx` for an accumulated operation. -/
def opRec (tx : Nat) (op : WalOp) : WalRec := .data op.typ tx op.table op.rows

/-- Concrete interleaved WAL used against the COMMIT-order claim: both
transactions replace table `t`, tx 2 commits first. -/
def walC3 : List WalRec :=
  [.begin 1, .begin 2, .data .rep 1 "t" [[Value.int 1]],
   .data .rep 2 "t" [[Value.int 2]], .commit 2, .commit 1]

/-- Concrete pages used to exercise the heap-page lemmas: a fresh page
after one insert, after a second insert, and after deleting slot 0. -/
def pageW1 : Page := ((newEmptyHeapPage.insertRow [7]).map Prod.snd).getD newEmptyHeapPage

def pageW2 : Page := ((pageW1.insertRow [8]).map Prod.snd).getD newEmptyHeapPage

def pageW3 : Page := pageW2.deleteSlot 0

/-- Concrete ascending insertion sequence exercising the leaf split: keys
1..256 with distinct RIDs. -/
def seqC5 : List (BKey × RID) :=
  (List.range (maxLeafKeys + 1)).map (fun i => (Int.ofNat i + 1, ⟨i + 1, i⟩))

/-! # Theorems -/

/-! ## Codec lemmas -/

theorem byteLE_length (n v : Nat) : (byteLE n v).length = n := by
  induction n generalizing v with
  | zero => rfl
  | succ n ih => simp [byteLE, ih]

theorem fromLE_byteLE (n v : Nat) : fromLE (byteLE n v) = v % 2 ^ (8 * n) := by
  induction n generalizing v with
  | zero => simp [byteLE, fromLE, Nat.mod_one]
  | succ n ih =>
      have hpow : (2 : Nat) ^ (8 * (n + 1)) = 256 * 2 ^ (8 * n) := by
        rw [Nat.mul_succ, Nat.pow_add]
        ring
      rw [byteLE, fromLE, ih, hpow, Nat.mod_mul]

theorem decInt64_encInt64 (i : Int) (h1 : -(2 ^ 63) ≤ i) (h2 : i < 2 ^ 63) :
    decInt64 (encInt64 i) = i := by
  have hlt : i % (2 ^ 64 : Int) < 2 ^ 64 := Int.emod_lt_of_pos i (by norm_num)
  have hle : 0 ≤ i % (2 ^ 64 : Int) := Int.emod_nonneg i (by norm_num)
  have hmod : i % (2 ^ 64 : Int) = i ∨ i % (2 ^ 64 : Int) = i + 2 ^ 64 := by
    rcases le_or_lt 0 i with hpos | hneg
    · left
      exact Int.emod_eq_of_lt hpos (by omega)
    · right
      have hshift : (i + 2 ^ 64 * 1) % (2 ^ 64 : Int) = i % (2 ^ 64 : Int) :=
        Int.add_mul_emod_self_left i (2 ^ 64) 1
      have hself : (i + 2 ^ 64 * 1) % (2 ^ 64 : Int) = i + 2 ^ 64 * 1 :=
        Int.emod_eq_of_lt (by omega) (by omega)
      omega
  unfold decInt64 encInt64
  rcases hmod with hcase | hcase <;> rw [hcase] at hle hlt ⊢ <;> split <;> omega

theorem readBytes_of_length (n : Nat) (xs rest : List Nat) (h : xs.length = n) :
    readBytes n (xs ++ rest) = some (xs, rest) := by
  subst h
  simp [readBytes, List.take_append, List.drop_append]

theorem encInt64_lt (i : Int) : encInt64 i < 2 ^ 64 := by
  have hlt : i.emod (2 ^ 64) < 2 ^ 64 := Int.emod_lt_of_pos i (by norm_num)
  have hle : 0 ≤ i.emod (2 ^ 64) := Int.emod_nonneg i (by norm_num)
  unfold encInt64
  omega

theorem writeValue_isSome (v : Value) (h : v.wf) : (writeValue v).isSome := by
  cases v with
  | str s =>
      obtain ⟨hl, _⟩ := h
      simp [writeValue]
      omega
  | int i => simp [writeValue]
  | float bits => simp [writeValue]
  | bool b => simp [writeValue]
  | null => simp [writeValue]

theorem readValue_writeValue (v : Value) (h : v.wf) (bs rest : List Nat)
    (hw : writeValue v = some bs) : readValue (bs ++ rest) = some (v, rest) := by
  cases v with
  | int i =>
      obtain ⟨h1, h2⟩ := h
      simp only [writeValue, Option.some.injEq] at hw
      subst hw
      have hrb : readBytes 8 (byteLE 8 (encInt64 i) ++ rest) = some (byteLE 8 (encInt64 i), rest) :=
        readBytes_of_length 8 _ rest (byteLE_length 8 _)
      have hm : encInt64 i % 18446744073709551616 = encInt64 i :=
        Nat.mod_eq_of_lt (by have := encInt64_lt i; norm_num at this ⊢; omega)
      simp [readValue, hrb, fromLE_byteLE, hm, decInt64_encInt64 i h1 h2]
  | float bits =>
      simp only [Value.wf] at h
      simp only [writeValue, Option.some.injEq] at hw
      subst hw
      have hrb : readBytes 8 (byteLE 8 bits ++ rest) = some (byteLE 8 bits, rest) :=
        readBytes_of_length 8 _ rest (byteLE_length 8 _)
      have hm : bits % 18446744073709551616 = bits :=
        Nat.mod_eq_of_lt (by norm_num at h ⊢; omega)
      simp [readValue, hrb, fromLE_byteLE, hm]
  | str s =>
      obtain ⟨hl, hb⟩ := h
      simp only [writeValue] at hw
      rw [if_neg (by omega)] at hw
      simp only [Option.some.injEq] at hw
      subst hw
      have hmap : s.map (· % 256) = s := by
        rw [List.map_congr_left (fun b hbmem => Nat.mod_eq_of_lt (hb b hbmem))]
        exact List.map_id s
      have hrb4 : readBytes 4 (byteLE 4 s.length ++ (s.map (· % 256) ++ rest)) =
          some (byteLE 4 s.length, s.map (· % 256) ++ rest) :=
        readBytes_of_length 4 _ _ (byteLE_length 4 _)
      have hls : s.length % 4294967296 = s.length :=
        Nat.mod_eq_of_lt (by omega)
      have hrbs : readBytes s.length (s ++ rest) = some (s, rest) :=
        readBytes_of_length _ _ rest rfl
      simp only [List.cons_append, List.append_assoc, readValue]
      norm_num
      rw [hrb4]
      simp only [fromLE_byteLE]
      norm_num
      simp only [hls, hmap, hrbs]
  | bool b =>
      simp only [writeValue, Option.some.injEq] at hw
      subst hw
      cases b <;> simp [readValue, readBytes, List.headI]
  | null =>
      simp only [writeValue, Option.some.injEq] at hw
      subst hw
      simp [readValue]

theorem readRow_writeRow_append (r : Row) (h : ∀ v ∈ r, v.wf) (bs rest : List Nat)
    (hw : writeRowBytes r = some bs) :
    readRowBytes r.length (bs ++ rest) = some (r, rest) := by
  induction r generalizing bs with
  | nil =>
      simp only [writeRowBytes, Option.some.injEq] at hw
      subst hw
      simp [readRowBytes]
  | cons v vs ih =>
      simp only [writeRowBytes, Option.bind_eq_bind, Option.pure_def,
        Option.bind_eq_some, Option.some.injEq] at hw
      obtain ⟨vb, hvb, tb, htb, hbs⟩ := hw
      subst hbs
      have hv : v.wf := h v (List.mem_cons_self v vs)
      have hvs : ∀ u ∈ vs, u.wf := fun u hu => h u (List.mem_cons_of_mem v hu)
      simp only [List.length_cons, readRowBytes, Option.bind_eq_bind, List.append_assoc]
      rw [readValue_writeValue v hv vb (tb ++ rest) hvb]
      simp only [Option.some_bind]
      rw [ih hvs tb htb]
      rfl

theorem writeRowBytes_isSome (r : Row) (h : ∀ v ∈ r, v.wf) : (writeRowBytes r).isSome := by
  induction r with
  | nil => simp [writeRowBytes]
  | cons v vs ih =>
      have hv := writeValue_isSome v (h v (List.mem_cons_self v vs))
      have hvs := ih (fun u hu => h u (List.mem_cons_of_mem v hu))
      obtain ⟨vb, hvb⟩ := Option.isSome_iff_exists.mp hv
      obtain ⟨tb, htb⟩ := Option.isSome_iff_exists.mp hvs
      simp [writeRowBytes, hvb, htb]

/-- C7.  Row encoding round-trips: for every row whose values carry one of
the supported type tags (with the well-formedness Go's types grant: `int64`
payload in range, 64-bit float pattern, byte-string with a length that fits
the `u32` prefix), decoding the bytes produced by `writeRow` with the row's
column count yields exactly the row, with nothing left over; rows containing
`Null` values included. -/
theorem writeRow_readRow_roundtrip (r : Row) (h : ∀ v ∈ r, v.wf) :
    (writeRowBytes r).bind (fun bs => readRowBytes r.length bs) = some (r, []) := by
  obtain ⟨bs, hbs⟩ := Option.isSome_iff_exists.mp (writeRowBytes_isSome r h)
  rw [hbs, Option.some_bind]
  have := readRow_writeRow_append r h bs [] hbs
  simpa using this

/-- Witness for C7 at a concrete five-column row containing every supported
tag, `Null` included. -/
theorem writeRow_readRow_roundtrip_witness :
    (writeRowBytes [Value.int (-7), Value.float 4614256656552045848,
        Value.str [104, 105], Value.bool true, Value.null]).bind
      (fun bs => readRowBytes 5 bs) =
      some ([Value.int (-7), Value.float 4614256656552045848,
        Value.str [104, 105], Value.bool true, Value.null], []) :=
  writeRow_readRow_roundtrip
    [Value.int (-7), Value.float 4614256656552045848,
      Value.str [104, 105], Value.bool true, Value.null]
    (by decide)

/-! ## CreateTable atomicity (C10) -/

/-- C10.  `create_table` is atomic with respect to the table file: when the
file does not yet exist but writing the header fails (e.g. more than 65535
columns), the partially created file is removed, so the directory is
unchanged, `list_tables` does not report the table, and a later
`create_table` with the same name and a writable schema succeeds instead of
failing with TableExists. -/
theorem createTable_atomic_on_header_failure (fs : DirFS) (name : String)
    (cols cols2 : List Column) (hfresh : fs.lookup name = none)
    (hfail : writeHeaderBytes cols = none) (hok : (writeHeaderBytes cols2).isSome) :
    createTable fs name cols = ⟨fs, false⟩ ∧
    listTables (createTable fs name cols).fs = listTables fs ∧
    (createTable (createTable fs name cols).fs name cols2).ok = true := by
  have hfirst : createTable fs name cols = ⟨fs, false⟩ := by
    unfold createTable
    rw [hfresh]
    simp [hfail]
  refine ⟨hfirst, by rw [hfirst], ?_⟩
  rw [hfirst]
  obtain ⟨bs, hbs⟩ := Option.isSome_iff_exists.mp hok
  unfold createTable
  rw [hfresh]
  simp [hbs]

/-- Witness for C10: empty directory, a 65536-column schema (whose header
write fails), then a valid one-column schema under the same name. -/
theorem createTable_atomic_on_header_failure_witness :
    createTable [] "t" (List.replicate 65536 ⟨[], 0⟩) = ⟨[], false⟩ ∧
    listTables (createTable [] "t" (List.replicate 65536 ⟨[], 0⟩)).fs = listTables [] ∧
    (createTable (createTable [] "t" (List.replicate 65536 ⟨[], 0⟩)).fs "t"
        [⟨[105, 100], 0⟩]).ok = true :=
  createTable_atomic_on_header_failure [] "t" (List.replicate 65536 ⟨[], 0⟩)
    [⟨[105, 100], 0⟩] rfl
    (by unfold writeHeaderBytes; rw [List.length_replicate]; norm_num)
    (by simp [writeHeaderBytes, byteLE])

/-! ## Insert WAL-before-check ordering (C2) -/

/-- C2 (code-bug evidence).  The page-based `Insert` appends its WAL INSERT
record before reading the schema and checking the row length: inserting a
two-value row into a one-column table fails with the row-length error, yet
the WAL (empty before the call) now holds an INSERT record carrying the
rejected row — contradicting the spec's step order, under which the failed
insert leaves the WAL unchanged.  (Recovery then cannot even parse such a
record, since it decodes exactly one value per schema column.) -/
theorem insertTx_logs_before_length_check :
    (insertTx false false 1 [] "t" { cols := [⟨[105, 100], 0⟩], pages := [] }
        [Value.int 1, Value.int 2]).wal =
      [.data .ins 1 "t" [[Value.int 1, Value.int 2]]] ∧
    (insertTx false false 1 [] "t" { cols := [⟨[105, 100], 0⟩], pages := [] }
        [Value.int 1, Value.int 2]).res =
      .error "filestore: row length mismatch" :=
  ⟨rfl, rfl⟩

/-! ## UpdateWhere pre-image lemmas (C9) -/

theorem BufHeap.alloc_fst (h : BufHeap) (r : Row) : (h.alloc r).1 = ⟨h.bufs ++ [r]⟩ := rfl

theorem BufHeap.alloc_snd (h : BufHeap) (r : Row) : (h.alloc r).2 = h.bufs.length := rfl

theorem BufHeap.read_mk (l : List Row) (i : Nat) : BufHeap.read ⟨l⟩ i = l.getD i [] := rfl

theorem BufHeap.read_write_ne (h : BufHeap) (i j : Nat) (v : Value) (k : Nat)
    (hk : k ≠ i) : (h.write i j v).read k = h.read k := by
  unfold BufHeap.write BufHeap.read
  rcases Nat.lt_or_ge i h.bufs.length with hlt | hge
  · simp only [List.getD_eq_getD_get?, List.get?_eq_getElem?]
    rw [List.getElem?_set_ne (by omega)]
  · rw [List.set_eq_of_length_le (by omega)]

theorem BufHeap.read_foldl_write_ne (ms : List (Nat × Value)) (h : BufHeap)
    (b k : Nat) (hk : k ≠ b) :
    (ms.foldl (fun acc mv => acc.write b mv.1 mv.2) h).read k = h.read k := by
  induction ms generalizing h with
  | nil => rfl
  | cons m rest ih => rw [List.foldl_cons, ih, BufHeap.read_write_ne h b m.1 m.2 k hk]

theorem BufHeap.alloc_read_copy (h : BufHeap) (i : Nat) :
    ((h.alloc (h.read i)).1).read i = h.read i := by
  rw [BufHeap.alloc_fst, BufHeap.read_mk]
  show (h.bufs ++ [h.read i]).getD i [] = h.read i
  unfold BufHeap.read
  rcases Nat.lt_trichotomy i h.bufs.length with hlt | heq | hgt
  · exact List.getD_append _ _ _ _ hlt
  · subst heq
    rw [List.getD_append_right _ _ _ _ (le_refl _)]
    simp
  · rw [List.getD_append_right _ _ _ _ (by omega)]
    rw [List.getD_eq_default _ _ (by simp; omega), List.getD_eq_default _ _ (by omega)]

theorem BufHeap.alloc_read_lt (h : BufHeap) (r : Row) (k : Nat)
    (hk : k < h.bufs.length) : ((h.alloc r).1).read k = h.read k := by
  rw [BufHeap.alloc_fst, BufHeap.read_mk]
  unfold BufHeap.read
  exact List.getD_append _ _ _ _ hk

theorem BufHeap.alloc_read_self (h : BufHeap) (r : Row) :
    ((h.alloc r).1).read (h.alloc r).2 = r := by
  rw [BufHeap.alloc_fst, BufHeap.alloc_snd, BufHeap.read_mk]
  rw [List.getD_append_right _ _ _ _ (le_refl _)]
  simp

/-- C9.  For every matching row processed by `UpdateWhere` and every
updater — including one that mutates the row slice it is handed in place —
the pre-image row carried by the WAL record it appends (old row of the
UPDATE record in place, row of the DELETE record on the grow path) equals
the row's stored value before the update, because `origRow` is cloned
before the updater runs and the updater receives its own clone. -/
theorem updateWhere_preimage_is_stored_row (h : BufHeap) (oldBuf : Nat)
    (u : GoUpdater) (txid : Nat) (tname : String) (slotLen : Nat) (rec : WalRec)
    (hrec : updateWhereLogRec h oldBuf u txid tname slotLen = some rec) :
    preImageOf (some rec) = some (h.read oldBuf) := by
  have horigread :
      ((callUpdater (((h.alloc (h.read oldBuf)).1).alloc
            (((h.alloc (h.read oldBuf)).1).read oldBuf)).1
          (((h.alloc (h.read oldBuf)).1).alloc
            (((h.alloc (h.read oldBuf)).1).read oldBuf)).2 u).1).read
        (h.alloc (h.read oldBuf)).2 = h.read oldBuf := by
    have hne : (h.alloc (h.read oldBuf)).2 ≠
        (((h.alloc (h.read oldBuf)).1).alloc
          (((h.alloc (h.read oldBuf)).1).read oldBuf)).2 := by
      rw [BufHeap.alloc_snd, BufHeap.alloc_snd, BufHeap.alloc_fst]
      simp
    unfold callUpdater
    rw [BufHeap.read_foldl_write_ne _ _ _ _ hne]
    have hlt : (h.alloc (h.read oldBuf)).2 < ((h.alloc (h.read oldBuf)).1).bufs.length := by
      rw [BufHeap.alloc_snd, BufHeap.alloc_fst]
      simp
    rw [BufHeap.alloc_read_lt _ _ _ hlt]
    exact BufHeap.alloc_read_self h (h.read oldBuf)
  simp only [updateWhereLogRec] at hrec
  rcases henc : encodeRowToBytes (callUpdater (((h.alloc (h.read oldBuf)).1).alloc
      (((h.alloc (h.read oldBuf)).1).read oldBuf)).1
      (((h.alloc (h.read oldBuf)).1).alloc
      (((h.alloc (h.read oldBuf)).1).read oldBuf)).2 u).2 with _ | nb <;>
    rw [henc] at hrec
  · exact absurd hrec (by simp)
  · dsimp only at hrec
    by_cases hfit : nb.length ≤ slotLen
    · rw [if_pos hfit, Option.some.injEq] at hrec
      rw [← hrec, preImageOf, horigread]
    · rw [if_neg hfit, Option.some.injEq] at hrec
      rw [← hrec, preImageOf, horigread]

/-- Witness for C9: one stored row `[Int 1]`, an updater that mutates its
argument slice in place to `[Int 99]` and returns it; the logged pre-image
is still `[Int 1]`. -/
theorem updateWhere_preimage_is_stored_row_witness :
    preImageOf (some (.data .upd 1 "t" [[Value.int 1], [Value.int 99]])) =
      some [Value.int 1] :=
  updateWhere_preimage_is_stored_row ⟨[[Value.int 1]]⟩ 0
    { muts := fun _ => [(0, Value.int 99)], ret := fun r => r.set 0 (Value.int 99) }
    1 "t" 9 (.data .upd 1 "t" [[Value.int 1], [Value.int 99]]) rfl

/-! ## Session / TxID lemmas (C4) -/

theorem countCommits_append (a b : List WalRec) (id : Nat) :
    countCommits (a ++ b) id = countCommits a id + countCommits b id := by
  simp [countCommits, List.filter_append]

theorem countRollbacks_append (a b : List WalRec) (id : Nat) :
    countRollbacks (a ++ b) id = countRollbacks a id + countRollbacks b id := by
  simp [countRollbacks, List.filter_append]

/-- Session invariant tying the appended WAL records to the transaction
table: TxIDs are the positions shifted by one (so distinct), and for each
id the end-records appended match the closed transactions carrying it. -/
def sessInv (w0 : List WalRec) (s : EngSt) : Prop :=
  s.nextTxID = s.txs.length + 1 ∧
  (∀ k p, s.txs[k]? = some p → p.1 = k + 1) ∧
  ∃ delta, s.wal = w0 ++ delta ∧
    ∀ id, countCommits delta id + countRollbacks delta id =
      (s.txs.filter (fun t => t.1 = id && t.2)).length

theorem sessInv_open (w0 : List WalRec) : sessInv w0 (engOpen w0) := by
  refine ⟨rfl, ?_, [], by simp [engOpen], ?_⟩
  · intro k p hk
    simp [engOpen] at hk
  · intro id
    simp [countCommits, countRollbacks, engOpen]

theorem sessInv_step (w0 : List WalRec) (s : EngSt) (e : SessEvent)
    (h : sessInv w0 s) : sessInv w0 (stepEvent s e) := by
  obtain ⟨hnext, hids, delta, hwal, hcnt⟩ := h
  cases e with
  | beginW =>
      refine ⟨by simp [stepEvent, hnext], ?_, delta ++ [.begin s.nextTxID], ?_, ?_⟩
      · intro k p hk
        simp only [stepEvent] at hk
        rcases Nat.lt_trichotomy k s.txs.length with hlt | heq | hgt
        · rw [List.getElem?_append_left hlt] at hk
          exact hids k p hk
        · subst heq
          rw [List.getElem?_append_right (le_refl _)] at hk
          simp only [Nat.sub_self, List.getElem?_cons_zero, Option.some.injEq] at hk
          rw [← hk]
          simpa using hnext
        · rw [List.getElem?_eq_none (by simp; omega)] at hk
          cases hk
      · simp [stepEvent, hwal]
      · intro id
        rw [countCommits_append, countRollbacks_append]
        simp only [stepEvent]
        rw [List.filter_append]
        have h1 : countCommits [.begin s.nextTxID] id = 0 := by
          simp [countCommits]
        have h2 : countRollbacks [.begin s.nextTxID] id = 0 := by
          simp [countRollbacks]
        have h3 : List.filter (fun t => t.1 = id && t.2) [(s.nextTxID, false)] = [] := by
          simp
        rw [h1, h2, h3]
        simp [hcnt id]
  | commitW i =>
      rcases hti : s.txs[i]? with _ | ⟨id0, c0⟩
      · simpa [stepEvent, hti] using ⟨hnext, hids, delta, hwal, hcnt⟩
      · cases c0 with
        | true => simpa [stepEvent, hti] using ⟨hnext, hids, delta, hwal, hcnt⟩
        | false =>
            have hid0 : id0 = i + 1 := hids i (id0, false) hti
            have hilen : i < s.txs.length := by
              by_contra hge
              rw [List.getElem?_eq_none (by omega)] at hti
              cases hti
            refine ⟨by simp [stepEvent, hti, hnext], ?_, delta ++ [.commit id0], ?_, ?_⟩
            · intro k p hk
              simp only [stepEvent, hti] at hk
              rcases eq_or_ne k i with heq | hne
              · subst heq
                rw [List.getElem?_set_eq_of_lt _ hilen] at hk
                simp only [Option.some.injEq] at hk
                rw [← hk]
                exact hid0
              · rw [List.getElem?_set_ne (Ne.symm hne)] at hk
                exact hids k p hk
            · simp [stepEvent, hti, hwal]
            · intro id
              simp only [stepEvent, hti]
              rw [countCommits_append, countRollbacks_append]
              obtain ⟨l1, l2, hl12, hlen1, hset⟩ : ∃ l1 l2,
                  s.txs = l1 ++ (id0, false) :: l2 ∧ l1.length = i ∧
                  s.txs.set i (id0, true) = l1 ++ (id0, true) :: l2 := by
                obtain ⟨l1, l2, hold, hlen1, hnew⟩ :=
                  @List.exists_of_set _ _ ((id0, true) : Nat × Bool) _ hilen
                have hgeti : s.txs[i] = (id0, false) := by
                  have := List.getElem?_eq_getElem hilen
                  rw [hti] at this
                  exact (Option.some.injEq _ _).mp this.symm
                rw [hgeti] at hold
                exact ⟨l1, l2, hold, hlen1, hnew⟩
              by_cases hidq : id0 = id
              · subst hidq
                have hcommit1 : countCommits [WalRec.commit id0] id0 = 1 := by
                  simp [countCommits]
                have hroll0 : countRollbacks [WalRec.commit id0] id0 = 0 := by
                  simp [countRollbacks]
                rw [hcommit1, hroll0, hset, List.filter_append]
                have hbefore := hcnt id0
                rw [hl12, List.filter_append] at hbefore
                simp only [List.filter_cons] at hbefore ⊢
                simp at hbefore ⊢
                omega
              · have hcommit0 : countCommits [WalRec.commit id0] id = 0 := by
                  simp [countCommits]
                  omega
                have hroll0 : countRollbacks [WalRec.commit id0] id = 0 := by
                  simp [countRollbacks]
                rw [hcommit0, hroll0, hset, List.filter_append]
                have hbefore := hcnt id
                rw [hl12, List.filter_append] at hbefore
                simp only [List.filter_cons] at hbefore ⊢
                have hne1 : (decide ((id0, false).1 = id) && (id0, false).2) = false := by
                  simp
                have hne2 : (decide ((id0, true).1 = id) && (id0, true).2) = false := by
                  simp [hidq]
                rw [hne1] at hbefore
                rw [hne2]
                simp at hbefore ⊢
                omega
  | rollbackW i =>
      rcases hti : s.txs[i]? with _ | ⟨id0, c0⟩
      · simpa [stepEvent, hti] using ⟨hnext, hids, delta, hwal, hcnt⟩
      · cases c0 with
        | true => simpa [stepEvent, hti] using ⟨hnext, hids, delta, hwal, hcnt⟩
        | false =>
            have hid0 : id0 = i + 1 := hids i (id0, false) hti
            have hilen : i < s.txs.length := by
              by_contra hge
              rw [List.getElem?_eq_none (by omega)] at hti
              cases hti
            refine ⟨by simp [stepEvent, hti, hnext], ?_, delta ++ [.rollback id0], ?_, ?_⟩
            · intro k p hk
              simp only [stepEvent, hti] at hk
              rcases eq_or_ne k i with heq | hne
              · subst heq
                rw [List.getElem?_set_eq_of_lt _ hilen] at hk
                simp only [Option.some.injEq] at hk
                rw [← hk]
                exact hid0
              · rw [List.getElem?_set_ne (Ne.symm hne)] at hk
                exact hids k p hk
            · simp [stepEvent, hti, hwal]
            · intro id
              simp only [stepEvent, hti]
              rw [countCommits_append, countRollbacks_append]
              obtain ⟨l1, l2, hl12, hlen1, hset⟩ : ∃ l1 l2,
                  s.txs = l1 ++ (id0, false) :: l2 ∧ l1.length = i ∧
                  s.txs.set i (id0, true) = l1 ++ (id0, true) :: l2 := by
                obtain ⟨l1, l2, hold, hlen1, hnew⟩ :=
                  @List.exists_of_set _ _ ((id0, true) : Nat × Bool) _ hilen
                have hgeti : s.txs[i] = (id0, false) := by
                  have := List.getElem?_eq_getElem hilen
                  rw [hti] at this
                  exact (Option.some.injEq _ _).mp this.symm
                rw [hgeti] at hold
                exact ⟨l1, l2, hold, hlen1, hnew⟩
              by_cases hidq : id0 = id
              · subst hidq
                have hcommit0 : countCommits [WalRec.rollback id0] id0 = 0 := by
                  simp [countCommits]
                have hroll1 : countRollbacks [WalRec.rollback id0] id0 = 1 := by
                  simp [countRollbacks]
                rw [hcommit0, hroll1, hset, List.filter_append]
                have hbefore := hcnt id0
                rw [hl12, List.filter_append] at hbefore
                simp only [List.filter_cons] at hbefore ⊢
                simp at hbefore ⊢
                omega
              · have hcommit0 : countCommits [WalRec.rollback id0] id = 0 := by
                  simp [countCommits]
                have hroll0 : countRollbacks [WalRec.rollback id0] id = 0 := by
                  simp [countRollbacks]
                  omega
                rw [hcommit0, hroll0, hset, List.filter_append]
                have hbefore := hcnt id
                rw [hl12, List.filter_append] at hbefore
                simp only [List.filter_cons] at hbefore ⊢
                have hne1 : (decide ((id0, false).1 = id) && (id0, false).2) = false := by
                  simp
                have hne2 : (decide ((id0, true).1 = id) && (id0, true).2) = false := by
                  simp [hidq]
                rw [hne1] at hbefore
                rw [hne2]
                simp at hbefore ⊢
                omega

theorem sessInv_run (w0 : List WalRec) (evs : List SessEvent) :
    sessInv w0 (runSession w0 evs) := by
  have hgen : ∀ (l : List SessEvent) (s : EngSt), sessInv w0 s →
      sessInv w0 (l.foldl stepEvent s) := by
    intro l
    induction l with
    | nil => intro s hs; exact hs
    | cons e rest ih =>
        intro s hs
        exact ih _ (sessInv_step w0 s e hs)
  exact hgen evs _ (sessInv_open w0)

theorem filter_closed_le_one_aux (txs : List (Nat × Bool)) (base : Nat)
    (hids : ∀ k p, txs[k]? = some p → p.1 = k + base) (id : Nat) :
    (txs.filter (fun t => t.1 = id && t.2)).length ≤ 1 := by
  induction txs generalizing base with
  | nil => simp
  | cons t rest ih =>
      have ht : t.1 = base := by
        have := hids 0 t (by simp)
        omega
      have hrest : ∀ k p, rest[k]? = some p → p.1 = k + (base + 1) := by
        intro k p hk
        have := hids (k + 1) p (by simpa using hk)
        omega
      simp only [List.filter_cons]
      by_cases hc : (decide (t.1 = id) && t.2) = true
      · rw [if_pos hc]
        have hid_eq : id = base := by
          simp only [Bool.and_eq_true, decide_eq_true_eq] at hc
          omega
        have hrestnil : rest.filter (fun t => t.1 = id && t.2) = [] := by
          rw [List.filter_eq_nil_iff]
          intro a ha
          obtain ⟨n, hlt, hv⟩ := List.getElem_of_mem ha
          have := hrest n a (by rw [List.getElem?_eq_getElem hlt, hv])
          simp only [Bool.and_eq_true, decide_eq_true_eq, not_and]
          intro h1
          omega
        rw [hrestnil]
        simp
      · rw [if_neg hc]
        exact ih (base + 1) hrest

/-- C4 (amended).  Within a single engine open: every write transaction is
minted a TxID distinct within the open; a transaction that was closed
(commit or rollback succeeded) has exactly one end record with its TxID in
the records appended by this open, and no TxID gets two COMMIT records.
(Across opens `next_tx_id` resets to 1, so TxIDs recur — see the
counterexample.) -/
theorem commit_record_unique_within_single_open (w0 : List WalRec)
    (evs : List SessEvent) (id : Nat) :
    (runSession w0 evs).wal = w0 ++ sessionRecords w0 evs ∧
    countCommits (sessionRecords w0 evs) id ≤ 1 ∧
    (∀ (k : Nat) (p : Nat × Bool), (runSession w0 evs).txs[k]? = some p → p.2 = true →
      countCommits (sessionRecords w0 evs) p.1 +
        countRollbacks (sessionRecords w0 evs) p.1 = 1) := by
  obtain ⟨hnext, hids, delta, hwal, hcnt⟩ := sessInv_run w0 evs
  have hdelta : sessionRecords w0 evs = delta := by
    unfold sessionRecords
    rw [hwal]
    exact List.drop_left w0 delta
  have hfmain : ∀ j, (((runSession w0 evs).txs.filter
      (fun t => t.1 = j && t.2)).length) ≤ 1 :=
    fun j => filter_closed_le_one_aux _ 1 hids j
  refine ⟨by rw [hdelta, hwal], ?_, ?_⟩
  · rw [hdelta]
    have := hcnt id
    have := hfmain id
    omega
  · intro k p hk hp
    rw [hdelta]
    have hmem : p ∈ (runSession w0 evs).txs := by
      have hlt : k < (runSession w0 evs).txs.length := by
        by_contra hge
        rw [List.getElem?_eq_none (by omega)] at hk
        cases hk
      have := List.getElem?_eq_getElem hlt
      rw [hk] at this
      rw [← Option.some.injEq _ _ |>.mp this.symm]
      exact List.getElem_mem hlt
    have hinfilter : p ∈ (runSession w0 evs).txs.filter (fun t => t.1 = p.1 && t.2) := by
      rw [List.mem_filter]
      exact ⟨hmem, by simp [hp]⟩
    have hge1 : 1 ≤ (((runSession w0 evs).txs.filter
        (fun t => t.1 = p.1 && t.2)).length) :=
      List.length_pos.mpr (List.ne_nil_of_mem hinfilter)
    have := hcnt p.1
    have := hfmain p.1
    omega

/-- Witness for C4's amended theorem: one open, one begin/commit cycle;
the committed transaction (TxID 1) has exactly one end record. -/
theorem commit_record_unique_within_single_open_witness :
    countCommits (sessionRecords [] [SessEvent.beginW, SessEvent.commitW 0]) 1 +
      countRollbacks (sessionRecords [] [SessEvent.beginW, SessEvent.commitW 0]) 1 = 1 :=
  (commit_record_unique_within_single_open [] [SessEvent.beginW, SessEvent.commitW 0] 1).2.2
    0 (1, true) rfl rfl

/-- Counterexample to C4 as stated: opening the same directory twice, each
open running one begin/commit cycle, yields two COMMIT records that both
carry TxID 1 (because `next_tx_id` resets to 1 at every open and the WAL is
only appended); the second open's transaction reached commit, yet its TxID
appears in two COMMIT records, so "exactly one COMMIT record carrying its
TxID" fails. -/
theorem txid_reuse_across_opens_counterexample :
    countCommits (runSessions [[SessEvent.beginW, SessEvent.commitW 0],
        [SessEvent.beginW, SessEvent.commitW 0]]) 1 = 2 ∧
    (runSession (runSessions [[SessEvent.beginW, SessEvent.commitW 0]])
        [SessEvent.beginW, SessEvent.commitW 0]).txs = [(1, true)] :=
  ⟨rfl, rfl⟩

/-! ## Heap-page lemmas (C8) -/

theorem Page.setSlot_numSlots (p : Page) (i off len : Nat) :
    (p.setSlot i off len).numSlots = p.numSlots := rfl

theorem Page.setSlot_freeStart (p : Page) (i off len : Nat) :
    (p.setSlot i off len).freeStart = p.freeStart := rfl

theorem Page.writeData_numSlots (p : Page) (st : Nat) (bs : List Nat) :
    (p.writeData st bs).numSlots = p.numSlots := rfl

theorem Page.writeData_freeStart (p : Page) (st : Nat) (bs : List Nat) :
    (p.writeData st bs).freeStart = p.freeStart := rfl

theorem Page.writeData_slots (p : Page) (st : Nat) (bs : List Nat) :
    (p.writeData st bs).slots = p.slots := rfl

/-- Every slot cell is either a tombstone or references a byte range that
ends inside the page; holds in all states reachable from a fresh page
(cells never written read as `(0, 0)`). -/
def Page.slotsBounded (p : Page) : Prop :=
  ∀ i, p.slots i = (65535, 0) ∨ (p.slots i).1 + (p.slots i).2 ≤ pageSize

/-- Characterization of a successful `insertRow`. -/
theorem insertRow_some_elim (p : Page) (bs : List Nat) (s : Nat) (p' : Page)
    (h : p.insertRow bs = some (s, p')) :
    ((p.freeStart : Int) + ((bs.length % 65536 +
        if p.firstTombstone.isNone then 4 else 0 : Nat) : Int) ≤
      (pageSize : Int) - (p.numSlots : Int) * 4) ∧
    s = p.firstTombstone.getD p.numSlots ∧
    p'.numSlots = (if p.firstTombstone.isNone then p.numSlots + 1 else p.numSlots) ∧
    p'.freeStart = (p.freeStart + bs.length % 65536) % 65536 ∧
    p'.slots = fun j => if j = s then (p.freeStart % 65536, bs.length % 65536 % 65536)
      else p.slots j := by
  unfold Page.insertRow at h
  dsimp only at h
  rw [Option.ite_none_left_eq_some] at h
  obtain ⟨hguard, h⟩ := h
  simp only [Option.some.injEq, Prod.mk.injEq] at h
  obtain ⟨hs, hp'⟩ := h
  have hnums : p'.numSlots = (if p.firstTombstone.isNone then p.numSlots + 1 else p.numSlots) := by
    rw [← hp']
    by_cases hre : p.firstTombstone.isNone = true
    · simp only [hre, if_true]
      rfl
    · rw [Bool.not_eq_true] at hre
      simp only [hre, Bool.false_eq_true, if_false]
      rfl
  have hfs : p'.freeStart = (p.freeStart + bs.length % 65536) % 65536 := by
    rw [← hp']
  have hslots : p'.slots = fun j => if j = s then (p.freeStart % 65536, bs.length % 65536 % 65536)
      else p.slots j := by
    rw [← hp', ← hs]
    by_cases hre : p.firstTombstone.isNone = true
    · simp only [hre, if_true]
      rfl
    · rw [Bool.not_eq_true] at hre
      simp only [hre, Bool.false_eq_true, if_false]
      rfl
  exact ⟨by omega, hs.symm, hnums, hfs, hslots⟩

theorem headerInv_fresh : newEmptyHeapPage.headerInv := by
  unfold Page.headerInv newEmptyHeapPage pageSize
  norm_num

theorem slotsBounded_fresh : newEmptyHeapPage.slotsBounded := by
  intro i
  right
  unfold newEmptyHeapPage pageSize
  norm_num

theorem insertRow_preserves_inv (p : Page) (bs : List Nat) (s : Nat) (p' : Page)
    (hinv : p.headerInv) (hb : p.slotsBounded)
    (h : p.insertRow bs = some (s, p')) : p'.headerInv ∧ p'.slotsBounded := by
  obtain ⟨hguard, hs, hnums, hfs, hslots⟩ := insertRow_some_elim p bs s p' h
  have hfsle : p.freeStart + 4 * p.numSlots ≤ pageSize := hinv
  have hsum : p.freeStart + bs.length % 65536 +
      (if p.firstTombstone.isNone then 4 else 0) + 4 * p.numSlots ≤ pageSize := by
    unfold pageSize at hguard ⊢
    by_cases hre : p.firstTombstone.isNone = true
    · simp only [hre, if_true] at hguard ⊢
      omega
    · rw [Bool.not_eq_true] at hre
      simp only [hre, Bool.false_eq_true, if_false] at hguard ⊢
      omega
  have hmod : (p.freeStart + bs.length % 65536) % 65536 =
      p.freeStart + bs.length % 65536 := by
    apply Nat.mod_eq_of_lt
    unfold pageSize at hsum
    omega
  have h1 : p.freeStart % 65536 = p.freeStart := by
    apply Nat.mod_eq_of_lt
    unfold pageSize at hsum
    omega
  have h2 : bs.length % 65536 % 65536 = bs.length % 65536 :=
    Nat.mod_eq_of_lt (Nat.mod_lt _ (by norm_num))
  have hsplit : 4 * (if p.firstTombstone.isNone then p.numSlots + 1 else p.numSlots) =
      4 * p.numSlots + (if p.firstTombstone.isNone then 4 else 0) := by
    split <;> ring
  constructor
  · show p'.freeStart + 4 * p'.numSlots ≤ pageSize
    rw [hfs, hnums, hmod, hsplit]
    unfold pageSize at hsum ⊢
    omega
  · intro j
    rw [hslots]
    rcases eq_or_ne j s with hj | hj
    · subst hj
      right
      simp only [if_pos rfl]
      show p.freeStart % 65536 + bs.length % 65536 % 65536 ≤ pageSize
      rw [h1, h2]
      unfold pageSize at hsum ⊢
      omega
    · simp only [if_neg hj]
      exact hb j

theorem rewindPass_le (p : Page) (hb : p.slotsBounded) (nfs : Nat) :
    (p.rewindPass nfs).1 ≤ nfs := by
  unfold Page.rewindPass
  have hgen : ∀ (l : List Nat) (acc : Nat × Bool), acc.1 ≤ nfs →
      (l.foldl (fun acc idx =>
          let c := p.slots idx
          if c.1 = 65535 ∨ c.2 = 0 then acc
          else if (c.1 + c.2) % 65536 = acc.1 then (c.1, true) else acc)
        acc).1 ≤ nfs := by
    intro l
    induction l with
    | nil => intro acc hacc; exact hacc
    | cons x xs ih =>
        intro acc hacc
        rw [List.foldl_cons]
        apply ih
        show (if (p.slots x).1 = 65535 ∨ (p.slots x).2 = 0 then acc
              else if ((p.slots x).1 + (p.slots x).2) % 65536 = acc.1
                   then ((p.slots x).1, true) else acc).1 ≤ nfs
        by_cases hdead : (p.slots x).1 = 65535 ∨ (p.slots x).2 = 0
        · rw [if_pos hdead]
          exact hacc
        · rw [if_neg hdead]
          by_cases heq : ((p.slots x).1 + (p.slots x).2) % 65536 = acc.1
          · rw [if_pos heq]
            rcases hb x with htomb | hbnd
            · exact absurd (Or.inl (congrArg Prod.fst htomb)) hdead
            · have hsm : ((p.slots x).1 + (p.slots x).2) % 65536 =
                  (p.slots x).1 + (p.slots x).2 := by
                apply Nat.mod_eq_of_lt
                unfold pageSize at hbnd
                omega
              have hlen0 : (p.slots x).2 ≠ 0 := fun hc => hdead (Or.inr hc)
              show (p.slots x).1 ≤ nfs
              omega
          · rw [if_neg heq]
            exact hacc
  exact hgen _ _ (le_refl nfs)

theorem rewindLoop_le (p : Page) (hb : p.slotsBounded) (fuel nfs : Nat) :
    p.rewindLoop fuel nfs ≤ nfs := by
  induction fuel generalizing nfs with
  | zero => exact le_refl nfs
  | succ fuel ih =>
      unfold Page.rewindLoop
      by_cases hprog : (p.rewindPass nfs).2
      · rw [if_pos hprog]
        exact le_trans (ih _) (rewindPass_le p hb nfs)
      · rw [if_neg hprog]
        exact rewindPass_le p hb nfs

theorem trimTrailing_le (slots : Nat → Nat × Nat) (n : Nat) :
    trimTrailing slots n ≤ n := by
  induction n with
  | zero => exact le_refl 0
  | succ n ih =>
      unfold trimTrailing
      split
      · omega
      · exact le_refl _

theorem deleteSlot_slots (p : Page) (i : Nat) :
    (p.deleteSlot i).slots = fun j => if j = i then (65535, 0) else p.slots j := by
  unfold Page.deleteSlot
  dsimp only
  by_cases hc : (p.slots i).1 ≠ 65535 ∧ (p.slots i).2 ≠ 0 ∧
      ((p.slots i).1 + (p.slots i).2) % 65536 = p.freeStart
  · rw [if_pos hc]
    funext j
    simp [Page.setSlot]
  · rw [if_neg hc]
    funext j
    simp [Page.setSlot]

theorem deleteSlot_preserves_inv (p : Page) (i : Nat)
    (hinv : p.headerInv) (hb : p.slotsBounded) :
    (p.deleteSlot i).headerInv ∧ (p.deleteSlot i).slotsBounded := by
  have hb1 : (p.setSlot i 65535 0).slotsBounded := by
    intro j
    simp only [Page.setSlot]
    rcases eq_or_ne j i with hj | hj
    · left
      simp [hj]
    · simp only [if_neg hj]
      exact hb j
  constructor
  · unfold Page.headerInv Page.deleteSlot
    simp only []
    have htrim : ∀ (q : Page), q.freeStart + 4 * p.numSlots ≤ pageSize →
        q.freeStart + 4 * trimTrailing q.slots p.numSlots ≤ pageSize := by
      intro q hq
      have := trimTrailing_le q.slots p.numSlots
      omega
    split
    · next hcond =>
        obtain ⟨hoff, hlen, hsum⟩ := hcond
        apply htrim
        simp only [Page.setSlot_freeStart]
        have hrew : (p.setSlot i 65535 0).rewindLoop 65536 (p.slots i).1 ≤ (p.slots i).1 :=
          rewindLoop_le _ hb1 _ _
        have hoffb : (p.slots i).1 + (p.slots i).2 ≤ pageSize := by
          rcases hb i with htomb | hbnd
          · exact absurd (congrArg Prod.fst htomb) hoff
          · exact hbnd
        have hsum' : (p.slots i).1 + (p.slots i).2 = p.freeStart := by
          rw [← hsum]
          symm
          apply Nat.mod_eq_of_lt
          unfold pageSize at hoffb
          omega
        have : p.freeStart + 4 * p.numSlots ≤ pageSize := hinv
        omega
    · apply htrim
      simp only [Page.setSlot_freeStart]
      exact hinv
  · intro j
    rw [deleteSlot_slots]
    rcases eq_or_ne j i with hj | hj
    · left
      simp [hj]
    · simp only [if_neg hj]
      exact hb j

theorem reachable_inv (p : Page) (h : Page.Reachable p) :
    p.headerInv ∧ p.slotsBounded := by
  induction h with
  | fresh => exact ⟨headerInv_fresh, slotsBounded_fresh⟩
  | insert hr hins ih => exact insertRow_preserves_inv _ _ _ _ ih.1 ih.2 hins
  | delete hr hi ih => exact deleteSlot_preserves_inv _ _ ih.1 ih.2

theorem deleteSlot_not_live (p : Page) (i : Nat) :
    i ∉ (p.deleteSlot i).liveSlots := by
  intro hmem
  unfold Page.liveSlots at hmem
  rw [List.mem_filter] at hmem
  obtain ⟨_, hpass⟩ := hmem
  rw [deleteSlot_slots] at hpass
  simp at hpass

theorem insertRow_reuses_first_tombstone (q : Page) (bs : List Nat) (i s : Nat)
    (p' : Page) (htomb : q.firstTombstone = some i)
    (hins : q.insertRow bs = some (s, p')) :
    s = i ∧ p'.numSlots = q.numSlots := by
  obtain ⟨hguard, hs, hnums, hfs, hslots⟩ := insertRow_some_elim q bs s p' hins
  have hnone : q.firstTombstone.isNone = false := by
    rw [htomb]
    rfl
  constructor
  · rw [hs, htomb]
    rfl
  · rw [hnums, hnone]
    simp

/-- C8.  The heap-page header invariant `freeStart ≤ PageSize - 4*numSlots`
holds for a fresh page and in every state reachable by successful
`insertRow` calls and `deleteSlot` calls on existing slots, in any
interleaving; after `deleteSlot i` iteration skips slot `i`; and when slot
`i` is the first tombstone after the delete, a subsequent successful
`insertRow` reuses exactly slot `i` without growing the slot directory. -/
theorem heapPage_inv_skip_reuse :
    newEmptyHeapPage.headerInv ∧
    (∀ p : Page, Page.Reachable p → p.headerInv) ∧
    (∀ (p : Page) (i : Nat), i ∉ (p.deleteSlot i).liveSlots) ∧
    (∀ (p : Page) (i : Nat) (bs : List Nat) (s : Nat) (p' : Page),
      (p.deleteSlot i).firstTombstone = some i →
      (p.deleteSlot i).insertRow bs = some (s, p') →
      s = i ∧ p'.numSlots = (p.deleteSlot i).numSlots) :=
  ⟨headerInv_fresh,
   fun p hr => (reachable_inv p hr).1,
   deleteSlot_not_live,
   fun p i bs s p' ht hins => insertRow_reuses_first_tombstone (p.deleteSlot i) bs i s p' ht hins⟩

/-- Witness for C8: insert two one-byte rows into a fresh page, delete slot
0; the page stays within the invariant, iteration skips slot 0, and the next
insert reuses slot 0 without growing the slot directory. -/
theorem heapPage_inv_skip_reuse_witness :
    pageW1.headerInv ∧
    0 ∉ pageW3.liveSlots ∧
    (pageW3.insertRow [9]).map (fun r => (r.1, r.2.numSlots)) = some (0, pageW3.numSlots) := by
  have hsome1 : (newEmptyHeapPage.insertRow [7]).isSome = true := rfl
  obtain ⟨⟨s1, p1⟩, hq1⟩ := Option.isSome_iff_exists.mp hsome1
  have hreach1 : Page.Reachable p1 := Page.Reachable.insert Page.Reachable.fresh hq1
  have hp1eq : pageW1 = p1 := by
    unfold pageW1
    rw [hq1]
    rfl
  refine ⟨?_, ?_, ?_⟩
  · rw [hp1eq]
    exact heapPage_inv_skip_reuse.2.1 p1 hreach1
  · exact heapPage_inv_skip_reuse.2.2.1 pageW2 0
  · have hsome3 : (pageW3.insertRow [9]).isSome = true := rfl
    obtain ⟨⟨s3, p3⟩, hq3⟩ := Option.isSome_iff_exists.mp hsome3
    have hconc := heapPage_inv_skip_reuse.2.2.2 pageW2 0 [9] s3 p3 rfl hq3
    rw [show pageW3 = pageW2.deleteSlot 0 from rfl] at hq3 ⊢
    rw [hq3]
    simp only [Option.map]
    rw [hconc.1, hconc.2]

/-! ## Recovery parse characterization (C1, C3)

`parseWalStates` is shown equal to reading off, for each transaction id in
first-appearance order, its data operations and COMMIT/ROLLBACK flags
straight from the record list. -/

theorem txFirstSeen_append (wal : List WalRec) (r : WalRec) :
    txFirstSeen (wal ++ [r]) =
      (if r.txId ∈ txFirstSeen wal then txFirstSeen wal else txFirstSeen wal ++ [r.txId]) := by
  unfold txFirstSeen
  rw [List.foldl_append]
  rfl

theorem txHasCommit_append (wal : List WalRec) (r : WalRec) (id : Nat) :
    txHasCommit (wal ++ [r]) id =
      (txHasCommit wal id ||
        (match r with | .commit tx => decide (tx = id) | _ => false)) := by
  unfold txHasCommit
  rw [List.any_append]
  simp [List.any]

theorem txHasRollback_append (wal : List WalRec) (r : WalRec) (id : Nat) :
    txHasRollback (wal ++ [r]) id =
      (txHasRollback wal id ||
        (match r with | .rollback tx => decide (tx = id) | _ => false)) := by
  unfold txHasRollback
  rw [List.any_append]
  simp [List.any]

theorem txDataOps_append (wal : List WalRec) (r : WalRec) (id : Nat) :
    txDataOps (wal ++ [r]) id =
      txDataOps wal id ++
        (match r with
         | .data ty tx table rows => if tx = id then [⟨ty, table, rows⟩] else []
         | _ => []) := by
  unfold txDataOps
  rw [List.filterMap_append]
  congr 1
  cases r with
  | data ty tx table rows =>
      by_cases htx : tx = id
      · simp [htx, List.filterMap]
      · simp [htx, List.filterMap]
  | begin tx => rfl
  | commit tx => rfl
  | rollback tx => rfl

theorem mem_txFirstSeen_of_mem (wal : List WalRec) (r : WalRec) (h : r ∈ wal) :
    r.txId ∈ txFirstSeen wal := by
  unfold txFirstSeen
  have hgen : ∀ (l : List WalRec) (acc : List Nat),
      (r ∈ l ∨ r.txId ∈ acc) →
      r.txId ∈ l.foldl (fun acc r => if r.txId ∈ acc then acc else acc ++ [r.txId]) acc := by
    intro l
    induction l with
    | nil =>
        intro acc hmem
        rcases hmem with hmem | hmem
        · cases hmem
        · exact hmem
    | cons x xs ih =>
        intro acc hmem
        rw [List.foldl_cons]
        apply ih
        rcases hmem with hmem | hmem
        · rcases List.mem_cons.mp hmem with hx | hx
          · subst hx
            right
            split
            · assumption
            · exact List.mem_append_right _ (List.mem_singleton.mpr rfl)
          · left
            exact hx
        · right
          split
          · exact hmem
          · exact List.mem_append_left _ hmem
  exact hgen wal [] (Or.inl h)

theorem not_seen_no_records (wal : List WalRec) (id : Nat)
    (h : id ∉ txFirstSeen wal) :
    txHasCommit wal id = false ∧ txHasRollback wal id = false ∧ txDataOps wal id = [] := by
  refine ⟨?_, ?_, ?_⟩
  · rw [← Bool.not_eq_true]
    intro hc
    unfold txHasCommit at hc
    obtain ⟨r, hr, hmatch⟩ := List.any_eq_true.mp hc
    have : r.txId = id := by
      cases r <;> simp_all [WalRec.txId]
    exact h (this ▸ mem_txFirstSeen_of_mem wal r hr)
  · rw [← Bool.not_eq_true]
    intro hc
    unfold txHasRollback at hc
    obtain ⟨r, hr, hmatch⟩ := List.any_eq_true.mp hc
    have : r.txId = id := by
      cases r <;> simp_all [WalRec.txId]
    exact h (this ▸ mem_txFirstSeen_of_mem wal r hr)
  · rw [List.eq_nil_iff_forall_not_mem]
    intro op hop
    unfold txDataOps at hop
    obtain ⟨r, hr, hmatch⟩ := List.mem_filterMap.mp hop
    have : r.txId = id := by
      cases r with
      | data ty tx table rows =>
          simp only [WalRec.txId]
          by_contra hne
          have hmatch2 : (if tx = id then some (⟨ty, table, rows⟩ : WalOp) else none) =
              some op := hmatch
          rw [if_neg hne] at hmatch2
          cases hmatch2
      | begin tx => cases hmatch
      | commit tx => cases hmatch
      | rollback tx => cases hmatch
    exact h (this ▸ mem_txFirstSeen_of_mem wal r hr)

theorem lookup_map_self (order : List Nat) (g : Nat → TxSt) (id : Nat) :
    (order.map (fun i => (i, g i))).lookup id =
      if id ∈ order then some (g id) else none := by
  induction order with
  | nil => rfl
  | cons a rest ih =>
      simp only [List.map_cons, List.lookup, List.mem_cons]
      by_cases ha : id = a
      · subst ha
        simp
      · have hbeq : (id == a) = false := by
          simp [ha]
        rw [hbeq]
        simp only [ha, false_or]
        exact ih

theorem getTxSt_map (order : List Nat) (g : Nat → TxSt) (id : Nat) :
    getTxSt (order.map (fun i => (i, g i))) id =
      if id ∈ order then order.map (fun i => (i, g i))
      else order.map (fun i => (i, g i)) ++ [(id, TxSt.init)] := by
  unfold getTxSt
  rw [lookup_map_self]
  by_cases him : id ∈ order <;> simp [him]

theorem updTxSt_map (order : List Nat) (g : Nat → TxSt) (id : Nat) (f : TxSt → TxSt) :
    updTxSt (order.map (fun i => (i, g i))) id f =
      order.map (fun i => (i, if i = id then f (g i) else g i)) := by
  unfold updTxSt
  rw [List.map_map]
  apply List.map_congr_left
  intro i _
  by_cases h : i = id <;> simp [h]

theorem map_pair_congr (order : List Nat) (g1 g2 : Nat → TxSt)
    (h : ∀ i ∈ order, g1 i = g2 i) :
    order.map (fun i => (i, g1 i)) = order.map (fun i => (i, g2 i)) :=
  List.map_congr_left (fun i hi => by rw [h i hi])

theorem parseWalStates_append (l : List WalRec) (r : WalRec) :
    parseWalStates (l ++ [r]) = parseStep (parseWalStates l) r := by
  unfold parseWalStates
  rw [List.foldl_append]
  rfl

theorem parseStep_begin (l : List (Nat × TxSt)) (tx : Nat) :
    parseStep l (.begin tx) = getTxSt l tx := rfl

theorem parseStep_commit (l : List (Nat × TxSt)) (tx : Nat) :
    parseStep l (.commit tx) =
      updTxSt (getTxSt l tx) tx (fun s => { s with committed := true }) := rfl

theorem parseStep_rollback (l : List (Nat × TxSt)) (tx : Nat) :
    parseStep l (.rollback tx) =
      updTxSt (getTxSt l tx) tx (fun s => { s with rolled := true }) := rfl

theorem parseStep_data (l : List (Nat × TxSt)) (ty : WalOpType) (tx : Nat)
    (table : String) (rows : List Row) :
    parseStep l (.data ty tx table rows) =
      updTxSt (getTxSt l tx) tx
        (fun s => { s with ops := s.ops ++ [⟨ty, table, rows⟩] }) := rfl

/-- The parse loop of recovery computes, for each transaction id in first-
appearance order, exactly its data ops and COMMIT/ROLLBACK flags. -/
theorem parseWalStates_chars (wal : List WalRec) :
    parseWalStates wal = (txFirstSeen wal).map
      (fun id => (id, ⟨txDataOps wal id, txHasCommit wal id, txHasRollback wal id⟩)) := by
  induction wal using List.reverseRecOn with
  | nil => rfl
  | append_singleton l r ih =>
      rw [parseWalStates_append, ih, txFirstSeen_append]
      have hsame : ∀ (keepc keepr : Bool → Bool) (addops : List WalOp), True := fun _ _ _ => trivial
      cases r with
      | begin tx =>
          rw [parseStep_begin, getTxSt_map]
          have hg : ∀ i, (⟨txDataOps (l ++ [.begin tx]) i, txHasCommit (l ++ [.begin tx]) i,
              txHasRollback (l ++ [.begin tx]) i⟩ : TxSt) =
              ⟨txDataOps l i, txHasCommit l i, txHasRollback l i⟩ := by
            intro i
            rw [txDataOps_append, txHasCommit_append, txHasRollback_append]
            simp
          by_cases hmem : tx ∈ txFirstSeen l
          · rw [if_pos hmem]
            have : (WalRec.begin tx).txId = tx := rfl
            rw [this, if_pos hmem]
            apply map_pair_congr
            intro i _
            exact (hg i).symm
          · rw [if_neg hmem]
            have : (WalRec.begin tx).txId = tx := rfl
            rw [this, if_neg hmem, List.map_append]
            congr 1
            · apply map_pair_congr
              intro i _
              exact (hg i).symm
            · obtain ⟨hc, hr, hops⟩ := not_seen_no_records l tx hmem
              simp only [List.map_cons, List.map_nil]
              rw [hg tx]
              rw [hc, hr, hops]
              rfl
      | commit tx =>
          have htxid : (WalRec.commit tx).txId = tx := rfl
          rw [parseStep_commit, getTxSt_map, htxid]
          have hgops : ∀ i, txDataOps (l ++ [.commit tx]) i = txDataOps l i := by
            intro i
            rw [txDataOps_append]
            simp
          have hgrb : ∀ i, txHasRollback (l ++ [.commit tx]) i = txHasRollback l i := by
            intro i
            rw [txHasRollback_append]
            simp
          have hgc : ∀ i, txHasCommit (l ++ [.commit tx]) i =
              (txHasCommit l i || decide (tx = i)) := by
            intro i
            rw [txHasCommit_append]
          by_cases hmem : tx ∈ txFirstSeen l
          · rw [if_pos hmem, if_pos hmem, updTxSt_map]
            apply List.map_congr_left
            intro i _
            congr 1
            rw [hgops, hgrb, hgc]
            by_cases hitx : i = tx
            · subst hitx
              simp
            · have : decide (tx = i) = false := by
                simp [Ne.symm hitx]
              simp [hitx, this]
          · rw [if_neg hmem, if_neg hmem]
            have hmap : updTxSt ((txFirstSeen l).map (fun i =>
                  (i, (⟨txDataOps l i, txHasCommit l i, txHasRollback l i⟩ : TxSt))) ++
                  [(tx, TxSt.init)]) tx (fun s => { s with committed := true }) =
                (txFirstSeen l).map (fun i =>
                  (i, (⟨txDataOps l i, txHasCommit l i, txHasRollback l i⟩ : TxSt))) ++
                  [(tx, { TxSt.init with committed := true })] := by
              unfold updTxSt
              rw [List.map_append, List.map_map]
              congr 1
              · apply List.map_congr_left
                intro i hi
                have hitx : i ≠ tx := fun hcon => hmem (hcon ▸ hi)
                simp [hitx]
              · simp
            rw [hmap, List.map_append]
            congr 1
            · apply map_pair_congr
              intro i hi
              have hitx : i ≠ tx := fun hcon => hmem (hcon ▸ hi)
              rw [hgops, hgrb, hgc]
              have : decide (tx = i) = false := by
                simp [Ne.symm hitx]
              simp [this]
            · obtain ⟨hc, hr, hops⟩ := not_seen_no_records l tx hmem
              simp only [List.map_cons, List.map_nil]
              rw [hgops, hgrb, hgc, hc, hr, hops]
              simp [TxSt.init]
      | rollback tx =>
          have htxid : (WalRec.rollback tx).txId = tx := rfl
          rw [parseStep_rollback, getTxSt_map, htxid]
          have hgops : ∀ i, txDataOps (l ++ [.rollback tx]) i = txDataOps l i := by
            intro i
            rw [txDataOps_append]
            simp
          have hgc : ∀ i, txHasCommit (l ++ [.rollback tx]) i = txHasCommit l i := by
            intro i
            rw [txHasCommit_append]
            simp
          have hgrb : ∀ i, txHasRollback (l ++ [.rollback tx]) i =
              (txHasRollback l i || decide (tx = i)) := by
            intro i
            rw [txHasRollback_append]
          by_cases hmem : tx ∈ txFirstSeen l
          · rw [if_pos hmem, if_pos hmem, updTxSt_map]
            apply List.map_congr_left
            intro i _
            congr 1
            rw [hgops, hgrb, hgc]
            by_cases hitx : i = tx
            · subst hitx
              simp
            · have : decide (tx = i) = false := by
                simp [Ne.symm hitx]
              simp [hitx, this]
          · rw [if_neg hmem, if_neg hmem]
            have hmap : updTxSt ((txFirstSeen l).map (fun i =>
                  (i, (⟨txDataOps l i, txHasCommit l i, txHasRollback l i⟩ : TxSt))) ++
                  [(tx, TxSt.init)]) tx (fun s => { s with rolled := true }) =
                (txFirstSeen l).map (fun i =>
                  (i, (⟨txDataOps l i, txHasCommit l i, txHasRollback l i⟩ : TxSt))) ++
                  [(tx, { TxSt.init with rolled := true })] := by
              unfold updTxSt
              rw [List.map_append, List.map_map]
              congr 1
              · apply List.map_congr_left
                intro i hi
                have hitx : i ≠ tx := fun hcon => hmem (hcon ▸ hi)
                simp [hitx]
              · simp
            rw [hmap, List.map_append]
            congr 1
            · apply map_pair_congr
              intro i hi
              have hitx : i ≠ tx := fun hcon => hmem (hcon ▸ hi)
              rw [hgops, hgrb, hgc]
              have : decide (tx = i) = false := by
                simp [Ne.symm hitx]
              simp [this]
            · obtain ⟨hc, hr, hops⟩ := not_seen_no_records l tx hmem
              simp only [List.map_cons, List.map_nil]
              rw [hgops, hgrb, hgc, hc, hr, hops]
              simp [TxSt.init]
      | data ty tx table rows =>
          have htxid : (WalRec.data ty tx table rows).txId = tx := rfl
          rw [parseStep_data, getTxSt_map, htxid]
          have hgc : ∀ i, txHasCommit (l ++ [.data ty tx table rows]) i =
              txHasCommit l i := by
            intro i
            rw [txHasCommit_append]
            simp
          have hgrb : ∀ i, txHasRollback (l ++ [.data ty tx table rows]) i =
              txHasRollback l i := by
            intro i
            rw [txHasRollback_append]
            simp
          have hgops : ∀ i, txDataOps (l ++ [.data ty tx table rows]) i =
              txDataOps l i ++ (if tx = i then [⟨ty, table, rows⟩] else []) := by
            intro i
            rw [txDataOps_append]
          by_cases hmem : tx ∈ txFirstSeen l
          · rw [if_pos hmem, if_pos hmem, updTxSt_map]
            apply List.map_congr_left
            intro i _
            congr 1
            rw [hgops, hgrb, hgc]
            by_cases hitx : i = tx
            · subst hitx
              simp
            · have : (if tx = i then [(⟨ty, table, rows⟩ : WalOp)] else []) = [] := by
                simp [Ne.symm hitx]
              simp [hitx, this]
          · rw [if_neg hmem, if_neg hmem]
            have hmap : updTxSt ((txFirstSeen l).map (fun i =>
                  (i, (⟨txDataOps l i, txHasCommit l i, txHasRollback l i⟩ : TxSt))) ++
                  [(tx, TxSt.init)]) tx
                  (fun s => { s with ops := s.ops ++ [⟨ty, table, rows⟩] }) =
                (txFirstSeen l).map (fun i =>
                  (i, (⟨txDataOps l i, txHasCommit l i, txHasRollback l i⟩ : TxSt))) ++
                  [(tx, { TxSt.init with ops := TxSt.init.ops ++ [⟨ty, table, rows⟩] })] := by
              unfold updTxSt
              rw [List.map_append, List.map_map]
              congr 1
              · apply List.map_congr_left
                intro i hi
                have hitx : i ≠ tx := fun hcon => hmem (hcon ▸ hi)
                simp [hitx]
              · simp
            rw [hmap, List.map_append]
            congr 1
            · apply map_pair_congr
              intro i hi
              have hitx : i ≠ tx := fun hcon => hmem (hcon ▸ hi)
              rw [hgops, hgrb, hgc]
              have : (if tx = i then [(⟨ty, table, rows⟩ : WalOp)] else []) = [] := by
                simp [Ne.symm hitx]
              simp [this]
            · obtain ⟨hc, hr, hops⟩ := not_seen_no_records l tx hmem
              simp only [List.map_cons, List.map_nil]
              rw [hgops, hgrb, hgc, hc, hr, hops]
              simp [TxSt.init]

theorem foldl_applyOps_none (g : Nat → TxSt) (l : List Nat) :
    l.foldl (fun acc id => match acc with
      | some mm => applyWalOps mm (g id).ops
      | none => none) none = none := by
  induction l with
  | nil => rfl
  | cons a rest ih => exact ih

theorem replay_map_filter (g : Nat → TxSt) (order : List Nat) (m : TableMap) :
    replayStates m (order.map (fun id => (id, g id))) =
      (order.filter (fun id => (g id).committed && !(g id).rolled)).foldl
        (fun acc id => match acc with
          | some mm => applyWalOps mm (g id).ops
          | none => none) (some m) := by
  induction order generalizing m with
  | nil => rfl
  | cons a rest ih =>
      simp only [List.map_cons, List.filter_cons]
      by_cases hc : ((g a).committed && !(g a).rolled) = true
      · rw [if_pos hc]
        show (if (g a).committed && !(g a).rolled then
            match applyWalOps m (g a).ops with
            | some m2 => replayStates m2 (rest.map (fun id => (id, g id)))
            | none => none
          else replayStates m (rest.map (fun id => (id, g id)))) = _
        rw [if_pos hc, List.foldl_cons]
        have hseed : (match some m with
            | some mm => applyWalOps mm (g a).ops
            | none => none) = applyWalOps m (g a).ops := rfl
        rw [hseed]
        rcases happ : applyWalOps m (g a).ops with _ | m2
        · exact (foldl_applyOps_none g _).symm
        · exact ih m2
      · rw [if_neg hc]
        show (if (g a).committed && !(g a).rolled then
            match applyWalOps m (g a).ops with
            | some m2 => replayStates m2 (rest.map (fun id => (id, g id)))
            | none => none
          else replayStates m (rest.map (fun id => (id, g id)))) = _
        rw [if_neg hc]
        exact ih m

/-- Shared bridge: the rebuilt contents of recovery equal the claim-side
first-appearance-order replay of committed, not-rolled-back transactions. -/
theorem recoverMap_eq_specReplayFirstSeen (wal : List WalRec) :
    recoverMap wal = specReplayFirstSeen wal := by
  unfold recoverMap specReplayFirstSeen
  rw [parseWalStates_chars]
  exact replay_map_filter
    (fun id => ⟨txDataOps wal id, txHasCommit wal id, txHasRollback wal id⟩)
    (txFirstSeen wal) TableMap.empty

/-- C1.  Recovery leaves each table's contents equal to the result of
replaying, onto empty tables, exactly the operations of transactions that
have a COMMIT record and no ROLLBACK record (taken transaction by
transaction in first-appearance order), with INSERT appending, REPLACEALL
replacing, DELETE removing the first value-equal row per entry and UPDATE
replacing the first row equal to old by new; transactions with no COMMIT,
or with a ROLLBACK, contribute nothing to the replay by construction. -/
theorem recovery_replays_committed_exactly (wal : List WalRec) :
    recoverMap wal = specReplayFirstSeen wal :=
  recoverMap_eq_specReplayFirstSeen wal

/-! ## Serialization order of recovery (C3) -/

/-- Counterexample to C3 as stated: on the interleaved WAL `BEGIN(1),
BEGIN(2), REPLACEALL(1, [[1]]), REPLACEALL(2, [[2]]), COMMIT(2), COMMIT(1)`,
recovery rebuilds `t` as `[[2]]` (transaction 1, whose TxID appears first,
is applied first), while replaying in COMMIT-record order would leave
`[[1]]` (transaction 2 committed first, so it would be applied first and
then overwritten by transaction 1). -/
theorem commit_order_replay_counterexample :
    (recoverMap walC3).map (fun m => m "t") = some [[Value.int 2]] ∧
    (specReplayCommitOrder walC3).map (fun m => m "t") = some [[Value.int 1]] ∧
    ([[Value.int 2]] : List Row) ≠ [[Value.int 1]] :=
  ⟨rfl, rfl, by decide⟩

theorem txFirstSeen_fold_fixed (l : List WalRec) (acc : List Nat)
    (h : ∀ r ∈ l, r.txId ∈ acc) :
    l.foldl (fun acc r => if r.txId ∈ acc then acc else acc ++ [r.txId]) acc = acc := by
  induction l with
  | nil => rfl
  | cons x xs ih =>
      rw [List.foldl_cons, if_pos (h x (List.mem_cons_self x xs))]
      exact ih (fun r hr => h r (List.mem_cons_of_mem x hr))

theorem txFirstSeen_interleaved (ops1 ops2 : List WalOp) :
    txFirstSeen ([WalRec.begin 1, WalRec.begin 2] ++ ops1.map (opRec 1) ++
      ops2.map (opRec 2) ++ [WalRec.commit 2, WalRec.commit 1]) = [1, 2] := by
  unfold txFirstSeen
  rw [List.foldl_append, List.foldl_append, List.foldl_append]
  have hbase : List.foldl (fun acc r => if r.txId ∈ acc then acc else acc ++ [r.txId])
      [] [WalRec.begin 1, WalRec.begin 2] = [1, 2] := by decide
  rw [hbase]
  have h1 : List.foldl (fun acc r => if r.txId ∈ acc then acc else acc ++ [r.txId])
      [1, 2] (ops1.map (opRec 1)) = [1, 2] := by
    apply txFirstSeen_fold_fixed
    intro r hr
    obtain ⟨op, _, rfl⟩ := List.mem_map.mp hr
    show (1 : Nat) ∈ [1, 2]
    simp
  have h2 : List.foldl (fun acc r => if r.txId ∈ acc then acc else acc ++ [r.txId])
      [1, 2] (ops2.map (opRec 2)) = [1, 2] := by
    apply txFirstSeen_fold_fixed
    intro r hr
    obtain ⟨op, _, rfl⟩ := List.mem_map.mp hr
    show (2 : Nat) ∈ [1, 2]
    simp
  rw [h1, h2]
  decide

theorem txDataOps_interleaved1 (ops1 ops2 : List WalOp) :
    txDataOps ([WalRec.begin 1, WalRec.begin 2] ++ ops1.map (opRec 1) ++
      ops2.map (opRec 2) ++ [WalRec.commit 2, WalRec.commit 1]) 1 = ops1 := by
  unfold txDataOps
  rw [List.filterMap_append, List.filterMap_append, List.filterMap_append]
  have ha : List.filterMap (fun r =>
      match r with
      | WalRec.data ty tx table rows =>
          if tx = 1 then some (⟨ty, table, rows⟩ : WalOp) else none
      | _ => none) [WalRec.begin 1, WalRec.begin 2] = [] := rfl
  have hb : List.filterMap (fun r =>
      match r with
      | WalRec.data ty tx table rows =>
          if tx = 1 then some (⟨ty, table, rows⟩ : WalOp) else none
      | _ => none) (ops1.map (opRec 1)) = ops1 := by
    rw [List.filterMap_map]
    exact List.filterMap_some ops1
  have hc : List.filterMap (fun r =>
      match r with
      | WalRec.data ty tx table rows =>
          if tx = 1 then some (⟨ty, table, rows⟩ : WalOp) else none
      | _ => none) (ops2.map (opRec 2)) = [] := by
    rw [List.filterMap_map]
    have : ∀ op ∈ ops2, ((fun r =>
        match r with
        | WalRec.data ty tx table rows =>
            if tx = 1 then some (⟨ty, table, rows⟩ : WalOp) else none
        | _ => none) ∘ opRec 2) op = none := by
      intro op _
      rfl
    induction ops2 with
    | nil => rfl
    | cons o os ih =>
        rw [List.filterMap_cons, this o (List.mem_cons_self o os)]
        exact ih (fun op hop => this op (List.mem_cons_of_mem o hop))
  have hd : List.filterMap (fun r =>
      match r with
      | WalRec.data ty tx table rows =>
          if tx = 1 then some (⟨ty, table, rows⟩ : WalOp) else none
      | _ => none) [WalRec.commit 2, WalRec.commit 1] = [] := rfl
  rw [ha, hb, hc, hd]
  simp

theorem txDataOps_interleaved2 (ops1 ops2 : List WalOp) :
    txDataOps ([WalRec.begin 1, WalRec.begin 2] ++ ops1.map (opRec 1) ++
      ops2.map (opRec 2) ++ [WalRec.commit 2, WalRec.commit 1]) 2 = ops2 := by
  unfold txDataOps
  rw [List.filterMap_append, List.filterMap_append, List.filterMap_append]
  have ha : List.filterMap (fun r =>
      match r with
      | WalRec.data ty tx table rows =>
          if tx = 2 then some (⟨ty, table, rows⟩ : WalOp) else none
      | _ => none) [WalRec.begin 1, WalRec.begin 2] = [] := rfl
  have hb : List.filterMap (fun r =>
      match r with
      | WalRec.data ty tx table rows =>
          if tx = 2 then some (⟨ty, table, rows⟩ : WalOp) else none
      | _ => none) (ops1.map (opRec 1)) = [] := by
    rw [List.filterMap_map]
    have : ∀ op ∈ ops1, ((fun r =>
        match r with
        | WalRec.data ty tx table rows =>
            if tx = 2 then some (⟨ty, table, rows⟩ : WalOp) else none
        | _ => none) ∘ opRec 1) op = none := by
      intro op _
      rfl
    induction ops1 with
    | nil => rfl
    | cons o os ih =>
        rw [List.filterMap_cons, this o (List.mem_cons_self o os)]
        exact ih (fun op hop => this op (List.mem_cons_of_mem o hop))
  have hc : List.filterMap (fun r =>
      match r with
      | WalRec.data ty tx table rows =>
          if tx = 2 then some (⟨ty, table, rows⟩ : WalOp) else none
      | _ => none) (ops2.map (opRec 2)) = ops2 := by
    rw [List.filterMap_map]
    exact List.filterMap_some ops2
  have hd : List.filterMap (fun r =>
      match r with
      | WalRec.data ty tx table rows =>
          if tx = 2 then some (⟨ty, table, rows⟩ : WalOp) else none
      | _ => none) [WalRec.commit 2, WalRec.commit 1] = [] := rfl
  rw [ha, hb, hc, hd]
  simp

theorem no_rollback_interleaved (ops1 ops2 : List WalOp) (id : Nat) :
    txHasRollback ([WalRec.begin 1, WalRec.begin 2] ++ ops1.map (opRec 1) ++
      ops2.map (opRec 2) ++ [WalRec.commit 2, WalRec.commit 1]) id = false := by
  rw [← Bool.not_eq_true]
  intro hcon
  unfold txHasRollback at hcon
  obtain ⟨r, hr, hm⟩ := List.any_eq_true.mp hcon
  cases r with
  | rollback tx => simp [opRec, List.mem_append, List.mem_map] at hr
  | begin tx => cases hm
  | commit tx => cases hm
  | data ty tx table rows => cases hm

theorem has_commit_interleaved (ops1 ops2 : List WalOp) (id : Nat)
    (h : id = 1 ∨ id = 2) :
    txHasCommit ([WalRec.begin 1, WalRec.begin 2] ++ ops1.map (opRec 1) ++
      ops2.map (opRec 2) ++ [WalRec.commit 2, WalRec.commit 1]) id = true := by
  apply List.any_eq_true.mpr
  refine ⟨WalRec.commit id, ?_, by simp⟩
  rcases h with h | h <;> subst h <;> simp [List.mem_append]

/-- C3 (amended).  Recovery serializes committed transactions by the order
of first appearance of their TxIDs in the WAL, not by COMMIT-record order:
in the interleaved pattern BEGIN(1), BEGIN(2), ops of 1, ops of 2,
COMMIT(2), COMMIT(1), the transaction whose TxID appears first (tx 1) is
applied first, even though its COMMIT record comes last. -/
theorem recovery_serializes_by_first_appearance (ops1 ops2 : List WalOp) :
    recoverMap ([WalRec.begin 1, WalRec.begin 2] ++ ops1.map (opRec 1) ++
        ops2.map (opRec 2) ++ [WalRec.commit 2, WalRec.commit 1]) =
      (match applyWalOps TableMap.empty ops1 with
       | some m => applyWalOps m ops2
       | none => none) := by
  rw [recoverMap_eq_specReplayFirstSeen]
  unfold specReplayFirstSeen
  rw [txFirstSeen_interleaved]
  have hf : List.filter (fun id =>
      txHasCommit ([WalRec.begin 1, WalRec.begin 2] ++ ops1.map (opRec 1) ++
        ops2.map (opRec 2) ++ [WalRec.commit 2, WalRec.commit 1]) id &&
      !txHasRollback ([WalRec.begin 1, WalRec.begin 2] ++ ops1.map (opRec 1) ++
        ops2.map (opRec 2) ++ [WalRec.commit 2, WalRec.commit 1]) id) [1, 2] =
      [1, 2] := by
    rw [List.filter_cons, List.filter_cons, List.filter_nil]
    rw [has_commit_interleaved ops1 ops2 1 (Or.inl rfl),
      has_commit_interleaved ops1 ops2 2 (Or.inr rfl),
      no_rollback_interleaved ops1 ops2 1, no_rollback_interleaved ops1 ops2 2]
    rfl
  rw [hf, List.foldl_cons, List.foldl_cons, List.foldl_nil]
  rw [txDataOps_interleaved1, txDataOps_interleaved2]

/-! ## B-tree lemmas -/

theorem listInsertAt_zero {α : Type} (a : α) (l : List α) :
    listInsertAt 0 a l = a :: l := by
  simp [listInsertAt]

theorem listInsertAt_succ_cons {α : Type} (n : Nat) (a f : α) (l : List α) :
    listInsertAt (n + 1) a (f :: l) = f :: listInsertAt n a l := by
  simp [listInsertAt]

theorem length_listInsertAt {α : Type} (n : Nat) (a : α) (l : List α) (h : n ≤ l.length) :
    (listInsertAt n a l).length = l.length + 1 := by
  simp [listInsertAt]
  omega

theorem mem_listInsertAt {α : Type} (n : Nat) (a x : α) (l : List α) :
    x ∈ listInsertAt n a l ↔ x = a ∨ x ∈ l := by
  unfold listInsertAt
  rw [List.mem_append, List.mem_cons]
  constructor
  · rintro (h | h | h)
    · exact Or.inr (List.mem_of_mem_take h)
    · exact Or.inl h
    · exact Or.inr (List.mem_of_mem_drop h)
  · rintro (h | h)
    · exact Or.inr (Or.inl h)
    · conv at h => rw [← List.take_append_drop n l]
      rcases List.mem_append.mp h with h | h
      · exact Or.inl h
      · exact Or.inr (Or.inr h)

theorem leafInsertPos_le (key : BKey) (es : List (BKey × RID)) :
    leafInsertPos key es ≤ es.length := by
  induction es with
  | nil => simp [leafInsertPos]
  | cons f rest ih =>
      rw [leafInsertPos]
      split
      · simp
      · simpa using Nat.succ_le_succ ih

theorem leafInsertPos_of_ge (key : BKey) (es : List (BKey × RID))
    (h : ∀ e ∈ es, e.1 ≤ key) : leafInsertPos key es = es.length := by
  induction es with
  | nil => rfl
  | cons f rest ih =>
      rw [leafInsertPos, if_neg (not_lt.mpr (h f (List.mem_cons_self f rest)))]
      rw [ih (fun e he => h e (List.mem_cons_of_mem f he)), List.length_cons]

theorem listInsertAt_length_self {α : Type} (a : α) (l : List α) :
    listInsertAt l.length a l = l ++ [a] := by
  simp [listInsertAt]

theorem pairwise_listInsertAt_leafPos (key : BKey) (rid : RID) (es : List (BKey × RID))
    (hs : List.Pairwise (fun a b => a.1 ≤ b.1) es) :
    List.Pairwise (fun a b : BKey × RID => a.1 ≤ b.1)
      (listInsertAt (leafInsertPos key es) (key, rid) es) := by
  induction es with
  | nil => simp [listInsertAt, leafInsertPos]
  | cons f rest ih =>
      obtain ⟨hf, ht⟩ := List.pairwise_cons.mp hs
      rw [leafInsertPos]
      by_cases hk : key < f.1
      · rw [if_pos hk, listInsertAt_zero, List.pairwise_cons]
        refine ⟨?_, hs⟩
        intro x hx
        rcases List.mem_cons.mp hx with rfl | hx
        · exact le_of_lt hk
        · exact le_of_lt (lt_of_lt_of_le hk (hf x hx))
      · rw [if_neg hk, listInsertAt_succ_cons, List.pairwise_cons]
        refine ⟨?_, ih ht⟩
        intro x hx
        rcases (mem_listInsertAt _ _ _ _).mp hx with rfl | hx
        · exact not_lt.mp hk
        · exact hf x hx

theorem filter_listInsertAt_leafPos (key : BKey) (rid : RID) (k : BKey)
    (es : List (BKey × RID)) (hs : List.Pairwise (fun a b => a.1 ≤ b.1) es) :
    (listInsertAt (leafInsertPos key es) (key, rid) es).filter (fun e => e.1 = k) =
      es.filter (fun e => e.1 = k) ++ (if key = k then [(key, rid)] else []) := by
  induction es with
  | nil =>
      by_cases h : key = k
      · simp [listInsertAt, leafInsertPos, List.filter_cons, h]
      · simp [listInsertAt, leafInsertPos, List.filter_cons, h]
  | cons f rest ih =>
      obtain ⟨hf, ht⟩ := List.pairwise_cons.mp hs
      rw [leafInsertPos]
      by_cases hk : key < f.1
      · rw [if_pos hk, listInsertAt_zero]
        by_cases hkk : key = k
        · subst hkk
          have hnone : (f :: rest).filter (fun e => e.1 = key) = [] := by
            rw [List.filter_eq_nil_iff]
            intro e he
            rcases List.mem_cons.mp he with rfl | he
            · simp only [decide_eq_true_eq]
              exact (ne_of_gt hk)
            · simp only [decide_eq_true_eq]
              exact (ne_of_gt (lt_of_lt_of_le hk (hf e he)))
          rw [List.filter_cons, hnone]
          simp
        · rw [List.filter_cons]
          simp [hkk]
      · rw [if_neg hk, listInsertAt_succ_cons, List.filter_cons, List.filter_cons, ih ht]
        split
        · simp
        · simp

theorem stableInsertEntry_of_le (e : BKey × RID) (l : List (BKey × RID))
    (h : ∀ f ∈ l, e.1 ≤ f.1) : stableInsertEntry e l = e :: l := by
  cases l with
  | nil => rfl
  | cons f rest =>
      rw [stableInsertEntry, if_neg (not_lt.mpr (h f (List.mem_cons_self f rest)))]

theorem stableSortEntries_of_pairwise (l : List (BKey × RID))
    (h : List.Pairwise (fun a b => a.1 ≤ b.1) l) : stableSortEntries l = l := by
  induction l with
  | nil => rfl
  | cons e rest ih =>
      obtain ⟨he, ht⟩ := List.pairwise_cons.mp h
      rw [stableSortEntries, ih ht, stableInsertEntry_of_le e rest he]

theorem btInsert_single_leaf (es : List (BKey × RID)) (key : BKey) (rid : RID)
    (hroom : es.length < maxLeafKeys) :
    btInsert ⟨0, 1, [.leaf es]⟩ key rid =
      some ⟨0, 1, [.leaf (listInsertAt (leafInsertPos key es) (key, rid) es)]⟩ := by
  unfold btInsert
  rw [show findLeafPath ⟨0, 1, [BtPage.leaf es]⟩ key
      (([BtPage.leaf es] : List BtPage).length + 1) 0 [] = some (0, es, [0]) from rfl]
  dsimp only
  rw [if_pos hroom]
  rfl

theorem btBuild_append (idx : BtIndex) (l1 l2 : List (BKey × RID)) :
    btBuild idx (l1 ++ l2) =
      match btBuild idx l1 with
      | none => none
      | some i => btBuild i l2 := by
  induction l1 generalizing idx with
  | nil => rfl
  | cons e rest ih =>
      rw [List.cons_append, btBuild, btBuild]
      cases btInsert idx e.1 e.2 with
      | none => rfl
      | some idx2 => exact ih idx2

theorem btBuild_single_leaf_aux (seq : List (BKey × RID)) :
    ∀ es : List (BKey × RID), es.length + seq.length ≤ maxLeafKeys →
      List.Pairwise (fun a b : BKey × RID => a.1 ≤ b.1) es →
      ∃ es', btBuild ⟨0, 1, [.leaf es]⟩ seq = some ⟨0, 1, [.leaf es']⟩ ∧
        es'.length = es.length + seq.length ∧
        List.Pairwise (fun a b : BKey × RID => a.1 ≤ b.1) es' ∧
        ∀ k, es'.filter (fun e => e.1 = k) =
          es.filter (fun e => e.1 = k) ++ seq.filter (fun e => e.1 = k) := by
  induction seq with
  | nil =>
      intro es _ hs
      exact ⟨es, rfl, by simp, hs, by simp⟩
  | cons e rest ih =>
      intro es hlen hs
      obtain ⟨ek, er⟩ := e
      have hroom : es.length < maxLeafKeys := by
        simp only [List.length_cons] at hlen
        omega
      have hlen2 : (listInsertAt (leafInsertPos ek es) (ek, er) es).length = es.length + 1 :=
        length_listInsertAt _ _ _ (leafInsertPos_le ek es)
      obtain ⟨es', hb, hlen', hs', hf⟩ :=
        ih (listInsertAt (leafInsertPos ek es) (ek, er) es)
          (by rw [hlen2]; simp only [List.length_cons] at hlen; omega)
          (pairwise_listInsertAt_leafPos ek er es hs)
      rw [btBuild]
      dsimp only
      rw [btInsert_single_leaf es ek er hroom]
      dsimp only
      refine ⟨es', hb, ?_, hs', ?_⟩
      · rw [hlen', hlen2, List.length_cons]
        omega
      · intro k
        rw [hf k, filter_listInsertAt_leafPos ek er k es hs, List.filter_cons]
        by_cases hkk : ek = k
        · simp [hkk]
        · simp [hkk]

theorem strictAscKeys_pairwise (l : List (BKey × RID)) (h : strictAscKeys l = true) :
    List.Pairwise (fun a b : BKey × RID => a.1 < b.1) l := by
  induction l with
  | nil => exact List.Pairwise.nil
  | cons a t ih =>
      cases t with
      | nil => simp
      | cons b r =>
          rw [strictAscKeys, Bool.and_eq_true, decide_eq_true_eq] at h
          obtain ⟨hab, ht⟩ := h
          have hp := ih ht
          refine List.pairwise_cons.mpr ⟨?_, hp⟩
          intro x hx
          rcases List.mem_cons.mp hx with rfl | hx
          · exact hab
          · exact lt_trans hab ((List.pairwise_cons.mp hp).1 x hx)

theorem btBuild_ascending_aux (seq : List (BKey × RID)) :
    ∀ es : List (BKey × RID), es.length + seq.length ≤ maxLeafKeys →
      List.Pairwise (fun a b : BKey × RID => a.1 < b.1) (es ++ seq) →
      btBuild ⟨0, 1, [.leaf es]⟩ seq = some ⟨0, 1, [.leaf (es ++ seq)]⟩ := by
  induction seq with
  | nil =>
      intro es _ _
      rw [List.append_nil]
      rfl
  | cons e rest ih =>
      intro es hlen hp
      obtain ⟨ek, er⟩ := e
      have hroom : es.length < maxLeafKeys := by
        simp only [List.length_cons] at hlen
        omega
      have hge : ∀ f ∈ es, f.1 ≤ (ek : BKey) := by
        intro f hf
        exact le_of_lt ((List.pairwise_append.mp hp).2.2 f hf (ek, er)
          (List.mem_cons_self _ _))
      have hassoc : (es ++ [(ek, er)]) ++ rest = es ++ (ek, er) :: rest := by
        rw [List.append_assoc, List.singleton_append]
      have hlen3 : (es ++ [(ek, er)]).length + rest.length ≤ maxLeafKeys := by
        simp only [List.length_append, List.length_cons, List.length_nil]
        simp only [List.length_cons] at hlen
        omega
      rw [btBuild]
      dsimp only
      rw [btInsert_single_leaf es ek er hroom, leafInsertPos_of_ge ek es hge,
        listInsertAt_length_self]
      dsimp only
      rw [ih (es ++ [(ek, er)]) hlen3 (by rw [hassoc]; exact hp), hassoc]

theorem leafKeyAt_eq_getElem (es : List (BKey × RID)) (i : Nat) (h : i < es.length) :
    leafKeyAt es i = (es[i]).1 := by
  rw [leafKeyAt, List.getD_eq_getElem es _ h]

theorem leafKeyAt_mono (es : List (BKey × RID))
    (hs : List.Pairwise (fun a b : BKey × RID => a.1 ≤ b.1) es) :
    ∀ i j, i ≤ j → j < es.length → leafKeyAt es i ≤ leafKeyAt es j := by
  intro i j hij hj
  rcases eq_or_lt_of_le hij with rfl | hlt
  · exact le_refl _
  · have hi : i < es.length := lt_trans hlt hj
    rw [leafKeyAt_eq_getElem es i hi, leafKeyAt_eq_getElem es j hj]
    exact List.pairwise_iff_getElem.mp hs i j hi hj hlt

theorem bsearchLo_spec (es : List (BKey × RID)) (k : BKey)
    (hmono : ∀ i j, i ≤ j → j < es.length → leafKeyAt es i ≤ leafKeyAt es j) :
    ∀ d lo hi : Nat, hi - lo = d → hi ≤ es.length → lo ≤ hi →
      (∀ i, i < lo → leafKeyAt es i < k) →
      (∀ i, hi ≤ i → i < es.length → k ≤ leafKeyAt es i) →
      lo ≤ bsearchLo es k lo hi ∧ bsearchLo es k lo hi ≤ hi ∧
      (∀ i, i < bsearchLo es k lo hi → leafKeyAt es i < k) ∧
      (∀ i, bsearchLo es k lo hi ≤ i → i < es.length → k ≤ leafKeyAt es i) := by
  intro d
  induction d using Nat.strong_induction_on with
  | _ d ih =>
      intro lo hi hd hhile hlohi hlo hhi
      rw [bsearchLo]
      by_cases hc : lo < hi
      · rw [dif_pos hc]
        dsimp only
        by_cases hgt : leafKeyAt es ((lo + hi) / 2) < k
        · rw [if_pos hgt]
          have hlo2 : ∀ i, i < (lo + hi) / 2 + 1 → leafKeyAt es i < k := by
            intro i hi2
            exact lt_of_le_of_lt
              (hmono i ((lo + hi) / 2) (by omega) (by omega)) hgt
          obtain ⟨h1, h2, h3, h4⟩ := ih (hi - ((lo + hi) / 2 + 1)) (by omega)
            ((lo + hi) / 2 + 1) hi rfl hhile (by omega) hlo2 hhi
          exact ⟨by omega, h2, h3, h4⟩
        · rw [if_neg hgt]
          have hk2 : k ≤ leafKeyAt es ((lo + hi) / 2) := not_lt.mp hgt
          have hhi2 : ∀ i, (lo + hi) / 2 ≤ i → i < es.length → k ≤ leafKeyAt es i := by
            intro i h1 h2
            exact le_trans hk2 (hmono ((lo + hi) / 2) i h1 h2)
          obtain ⟨h1, h2, h3, h4⟩ := ih ((lo + hi) / 2 - lo) (by omega)
            lo ((lo + hi) / 2) rfl (by omega) (by omega) hlo hhi2
          exact ⟨h1, by omega, h3, h4⟩
      · rw [dif_neg hc]
        refine ⟨le_refl _, by omega, hlo, ?_⟩
        intro i h1 h2
        exact hhi i (by omega) h2

theorem collectEqFrom_eq_takeWhile (es : List (BKey × RID)) (k : BKey) :
    ∀ d i : Nat, es.length - i = d →
      collectEqFrom es k i =
        ((es.drop i).takeWhile (fun e => e.1 = k)).map (fun e => e.2) := by
  intro d
  induction d using Nat.strong_induction_on with
  | _ d ih =>
      intro i hd
      rw [collectEqFrom]
      by_cases hi : i < es.length
      · rw [dif_pos hi, List.drop_eq_getElem_cons hi, List.takeWhile_cons]
        by_cases hk : (es[i]).1 = k
        · have hcond : leafKeyAt es i = k := by
            rw [leafKeyAt_eq_getElem es i hi]
            exact hk
          rw [if_pos hcond, if_pos (decide_eq_true hk), List.map_cons]
          congr 1
          · rw [List.getD_eq_getElem es _ hi]
          · exact ih (es.length - (i + 1)) (by omega) (i + 1) rfl
        · have hcond : ¬ leafKeyAt es i = k := by
            rw [leafKeyAt_eq_getElem es i hi]
            exact hk
          rw [if_neg hcond, if_neg (by simpa using hk), List.map_nil]
      · rw [dif_neg hi, List.drop_eq_nil_of_le (by omega), List.takeWhile_nil,
          List.map_nil]

theorem filter_eq_takeWhile_of_ge (k : BKey) (l : List (BKey × RID))
    (hs : List.Pairwise (fun a b : BKey × RID => a.1 ≤ b.1) l)
    (hge : ∀ e ∈ l, k ≤ e.1) :
    l.filter (fun e => e.1 = k) = l.takeWhile (fun e => e.1 = k) := by
  induction l with
  | nil => rfl
  | cons f rest ih =>
      obtain ⟨hf, ht⟩ := List.pairwise_cons.mp hs
      rw [List.filter_cons, List.takeWhile_cons]
      by_cases hk : f.1 = k
      · rw [if_pos (decide_eq_true hk), if_pos (decide_eq_true hk)]
        rw [ih ht (fun e he => hge e (List.mem_cons_of_mem f he))]
      · rw [if_neg (by simpa using hk), if_neg (by simpa using hk)]
        rw [List.filter_eq_nil_iff]
        intro e he
        have h1 : k ≤ f.1 := hge f (List.mem_cons_self f rest)
        have h2 : f.1 ≤ e.1 := hf e he
        have h3 : k < e.1 := lt_of_lt_of_le (lt_of_le_of_ne h1 (Ne.symm hk)) h2
        simpa using (ne_of_gt h3)

theorem collect_bsearch_eq_filter (es : List (BKey × RID)) (k : BKey)
    (hs : List.Pairwise (fun a b : BKey × RID => a.1 ≤ b.1) es) :
    collectEqFrom es k (bsearchLo es k 0 es.length) =
      (es.filter (fun e => e.1 = k)).map (fun e => e.2) := by
  have hmono := leafKeyAt_mono es hs
  obtain ⟨-, hle, hlt, hge⟩ := bsearchLo_spec es k hmono (es.length - 0) 0 es.length rfl
    (le_refl _) (Nat.zero_le _)
    (fun i h => absurd h (Nat.not_lt_zero i))
    (fun i h1 h2 => absurd h2 (not_lt.mpr h1))
  set st := bsearchLo es k 0 es.length with hst
  rw [collectEqFrom_eq_takeWhile es k (es.length - st) st rfl]
  have hdge : ∀ e ∈ es.drop st, k ≤ e.1 := by
    intro e he
    obtain ⟨j, hj, hje⟩ := List.getElem_of_mem he
    have hjlen : st + j < es.length := by
      rw [List.length_drop] at hj
      omega
    rw [← hje, List.getElem_drop]
    have := hge (st + j) (Nat.le_add_right st j) hjlen
    rw [leafKeyAt_eq_getElem es _ hjlen] at this
    exact this
  have hds : List.Pairwise (fun a b : BKey × RID => a.1 ≤ b.1) (es.drop st) :=
    List.Pairwise.sublist (List.drop_sublist st es) hs
  rw [← filter_eq_takeWhile_of_ge k (es.drop st) hds hdge]
  have hself : es.filter (fun e => e.1 = k) = (es.drop st).filter (fun e => e.1 = k) := by
    conv_lhs => rw [← List.take_append_drop st es]
    rw [List.filter_append]
    have htake : (es.take st).filter (fun e => e.1 = k) = [] := by
      rw [List.filter_eq_nil_iff]
      intro e he
      obtain ⟨j, hj, hje⟩ := List.getElem_of_mem he
      have hjst : j < st := by
        rw [List.length_take] at hj
        omega
      have hjlen : j < es.length := lt_of_lt_of_le hjst hle
      have hlt2 := hlt j hjst
      rw [leafKeyAt_eq_getElem es j hjlen] at hlt2
      rw [← hje, List.getElem_take]
      simpa using (ne_of_lt hlt2)
    rw [htake, List.nil_append]
  rw [hself]

theorem btSearch_single_leaf (es : List (BKey × RID)) (k : BKey)
    (hs : List.Pairwise (fun a b : BKey × RID => a.1 ≤ b.1) es) :
    btSearch ⟨0, 1, [.leaf es]⟩ k =
      some ((es.filter (fun e => e.1 = k)).map (fun e => e.2)) := by
  unfold btSearch
  rw [show findLeaf ⟨0, 1, [BtPage.leaf es]⟩ k
      (([BtPage.leaf es] : List BtPage).length + 1) 0 = some es from rfl]
  dsimp only
  rw [collect_bsearch_eq_filter es k hs]

/-- C6: B-tree insertion of duplicate keys is stable.  For every sequence of
`Insert(key, rid)` calls that fits in one leaf (at most `maxLeafKeys`), every
`Search k` on the resulting index returns exactly the RIDs inserted with key
`k`, in insertion order. -/
theorem btree_leaf_duplicates_stable (seq : List (BKey × RID))
    (hlen : seq.length ≤ maxLeafKeys) :
    ∃ idx, btBuild btEmpty seq = some idx ∧
      ∀ k, btSearch idx k = some (ridsOfKey seq k) := by
  obtain ⟨es', hb, hlen', hs', hf⟩ := btBuild_single_leaf_aux seq []
    (by simpa using hlen) List.Pairwise.nil
  rw [show btEmpty = (⟨0, 1, [.leaf []]⟩ : BtIndex) from rfl]
  refine ⟨⟨0, 1, [.leaf es']⟩, hb, ?_⟩
  intro k
  have hfk := hf k
  simp only [List.filter_nil, List.nil_append] at hfk
  rw [btSearch_single_leaf es' k hs', hfk, ridsOfKey]

/-- Witness for C6 at the sequence (50, r1), (10, r2), (50, r3): the build
succeeds and `Search 50` returns `[r1, r3]` in insertion order. -/
theorem btree_leaf_duplicates_stable_witness :
    ([((50 : Int), RID.mk 1 1), ((10 : Int), RID.mk 1 2),
        ((50 : Int), RID.mk 1 3)].length ≤ maxLeafKeys) ∧
    ∃ idx, btBuild btEmpty
        [((50 : Int), RID.mk 1 1), ((10 : Int), RID.mk 1 2), ((50 : Int), RID.mk 1 3)] =
        some idx ∧
      btSearch idx 50 = some [RID.mk 1 1, RID.mk 1 3] := by
  refine ⟨by decide, ?_⟩
  obtain ⟨idx, hb, hsearch⟩ := btree_leaf_duplicates_stable
    [((50 : Int), RID.mk 1 1), ((10 : Int), RID.mk 1 2), ((50 : Int), RID.mk 1 3)]
    (by decide)
  refine ⟨idx, hb, ?_⟩
  rw [hsearch 50]
  rfl

theorem btInsert_single_leaf_split (es : List (BKey × RID)) (key : BKey) (rid : RID)
    (hfull : es.length = maxLeafKeys)
    (hsorted : List.Pairwise (fun a b : BKey × RID => a.1 ≤ b.1) (es ++ [(key, rid)])) :
    btInsert ⟨0, 1, [.leaf es]⟩ key rid = some ⟨2, 3,
      [.leaf ((es ++ [(key, rid)]).take ((maxLeafKeys + 1) / 2)),
       .leaf ((es ++ [(key, rid)]).drop ((maxLeafKeys + 1) / 2)),
       .internal [0, 1] [leafKeyAt (es ++ [(key, rid)]) ((maxLeafKeys + 1) / 2)]]⟩ := by
  have hl : (es ++ [(key, rid)]).length = maxLeafKeys + 1 := by
    simp [hfull]
  have hbound : (maxLeafKeys + 1) / 2 < (es ++ [(key, rid)]).length := by
    rw [hl]
    omega
  unfold btInsert
  rw [show findLeafPath ⟨0, 1, [BtPage.leaf es]⟩ key
      (([BtPage.leaf es] : List BtPage).length + 1) 0 [] = some (0, es, [0]) from rfl]
  dsimp only
  rw [if_neg (by rw [hfull]; exact lt_irrefl _)]
  rw [stableSortEntries_of_pairwise _ hsorted, hl]
  rw [List.head?_drop, List.getElem?_eq_getElem hbound]
  dsimp only
  rw [leafKeyAt_eq_getElem _ _ hbound]
  rfl

theorem findLeaf_split (L R : List (BKey × RID)) (sep k : BKey) :
    findLeaf ⟨2, 3, [.leaf L, .leaf R, .internal [0, 1] [sep]]⟩ k 4 2 =
      some (if k < sep then L else R) := by
  have hchild : childIndexFor k [sep] = if k < sep then 0 else 1 := by
    rw [childIndexFor]
    by_cases h : k < sep
    · rw [if_pos h, if_pos h]
    · rw [if_neg h, if_neg h, childIndexFor]
  rw [show (4 : Nat) = 3 + 1 from rfl, findLeaf]
  dsimp only
  rw [show ([BtPage.leaf L, BtPage.leaf R, BtPage.internal [0, 1] [sep]].get? 2) =
    some (BtPage.internal [0, 1] [sep]) from rfl]
  dsimp only
  rw [hchild]
  by_cases h : k < sep
  · rw [if_pos h, if_pos h]
    rfl
  · rw [if_neg h, if_neg h]
    rfl

theorem btSearch_split (L R : List (BKey × RID)) (sep k : BKey) :
    btSearch ⟨2, 3, [.leaf L, .leaf R, .internal [0, 1] [sep]]⟩ k =
      some (collectEqFrom (if k < sep then L else R) k
        (bsearchLo (if k < sep then L else R) k 0 (if k < sep then L else R).length)) := by
  unfold btSearch
  rw [show findLeaf ⟨2, 3, [BtPage.leaf L, BtPage.leaf R, BtPage.internal [0, 1] [sep]]⟩ k
      (([BtPage.leaf L, BtPage.leaf R, BtPage.internal [0, 1] [sep]] :
        List BtPage).length + 1) 2 = some (if k < sep then L else R)
    from findLeaf_split L R sep k]

theorem filter_eq_singleton_of_pairwise_lt (l : List (BKey × RID))
    (hp : List.Pairwise (fun a b : BKey × RID => a.1 < b.1) l)
    (e : BKey × RID) (he : e ∈ l) :
    l.filter (fun f => f.1 = e.1) = [e] := by
  induction l with
  | nil => exact absurd he (List.not_mem_nil e)
  | cons f rest ih =>
      obtain ⟨hf, ht⟩ := List.pairwise_cons.mp hp
      rcases List.mem_cons.mp he with rfl | he2
      · rw [List.filter_cons, if_pos (decide_eq_true rfl)]
        have hnil : rest.filter (fun f2 => f2.1 = e.1) = [] := by
          rw [List.filter_eq_nil_iff]
          intro x hx
          simpa using (ne_of_gt (hf x hx))
        rw [hnil]
      · rw [List.filter_cons, if_neg (by simpa using (ne_of_lt (hf e he2)))]
        exact ih ht he2

theorem btSplitAscendingSpec (seq : List (BKey × RID))
    (hlen : seq.length = maxLeafKeys + 1) (hasc : strictAscKeys seq = true) :
    ∃ idx, btBuild btEmpty seq = some idx ∧
      idx.pages.get? idx.rootPageID =
        some (.internal [0, 1] [(seq.getD ((maxLeafKeys + 1) / 2) (0, ⟨0, 0⟩)).1]) ∧
      ∀ e ∈ seq, btSearch idx e.1 = some [e.2] := by
  have hp : List.Pairwise (fun a b : BKey × RID => a.1 < b.1) seq :=
    strictAscKeys_pairwise seq hasc
  have hple : List.Pairwise (fun a b : BKey × RID => a.1 ≤ b.1) seq :=
    hp.imp le_of_lt
  have hb255 : maxLeafKeys < seq.length := by
    rw [hlen]
    omega
  have hdrop : seq.drop maxLeafKeys = [seq[maxLeafKeys]] := by
    rw [List.drop_eq_getElem_cons hb255, List.drop_eq_nil_of_le (by omega)]
  have hsplit : seq = seq.take maxLeafKeys ++ [seq[maxLeafKeys]] := by
    conv_lhs => rw [← List.take_append_drop maxLeafKeys seq]
    rw [hdrop]
  have hfull : (seq.take maxLeafKeys).length = maxLeafKeys := by
    rw [List.length_take, hlen]
    omega
  have hfront : btBuild btEmpty (seq.take maxLeafKeys) =
      some ⟨0, 1, [.leaf (seq.take maxLeafKeys)]⟩ := by
    have h := btBuild_ascending_aux (seq.take maxLeafKeys) []
      (by simp only [List.length_nil, List.length_take, hlen]; omega)
      (by simpa using List.Pairwise.sublist (List.take_sublist maxLeafKeys seq) hp)
    rw [show btEmpty = (⟨0, 1, [.leaf []]⟩ : BtIndex) from rfl]
    simpa using h
  have hsorted2 : List.Pairwise (fun a b : BKey × RID => a.1 ≤ b.1)
      (seq.take maxLeafKeys ++ [((seq[maxLeafKeys]).1, (seq[maxLeafKeys]).2)]) := by
    rw [Prod.mk.eta, ← hsplit]
    exact hple
  have hbb : btBuild btEmpty seq = some ⟨2, 3,
      [.leaf (seq.take ((maxLeafKeys + 1) / 2)),
       .leaf (seq.drop ((maxLeafKeys + 1) / 2)),
       .internal [0, 1] [leafKeyAt seq ((maxLeafKeys + 1) / 2)]]⟩ := by
    conv_lhs => rw [hsplit]
    rw [btBuild_append, hfront]
    dsimp only
    rw [btBuild]
    rw [btInsert_single_leaf_split (seq.take maxLeafKeys) (seq[maxLeafKeys]).1
      (seq[maxLeafKeys]).2 hfull hsorted2]
    dsimp only
    rw [btBuild, Prod.mk.eta, ← hsplit]
  refine ⟨_, hbb, rfl, ?_⟩
  intro e hemem
  obtain ⟨i, hi, rfl⟩ := List.getElem_of_mem hemem
  have hsepb : (maxLeafKeys + 1) / 2 < seq.length := by
    rw [hlen]
    omega
  have hsep : leafKeyAt seq ((maxLeafKeys + 1) / 2) = (seq[(maxLeafKeys + 1) / 2]).1 :=
    leafKeyAt_eq_getElem seq _ hsepb
  rw [btSearch_split]
  by_cases hcase : (seq[i]).1 < leafKeyAt seq ((maxLeafKeys + 1) / 2)
  · rw [if_pos hcase]
    have hiL : i < (seq.take ((maxLeafKeys + 1) / 2)).length := by
      rw [List.length_take, hlen]
      rcases Nat.lt_or_ge i ((maxLeafKeys + 1) / 2) with h | h
      · omega
      · exfalso
        rw [hsep] at hcase
        rcases Nat.eq_or_lt_of_le h with rfl | h2
        · exact lt_irrefl _ hcase
        · exact absurd (List.pairwise_iff_getElem.mp hp _ i hsepb hi h2)
            (not_lt.mpr (le_of_lt hcase))
    have hmemL : seq[i] ∈ seq.take ((maxLeafKeys + 1) / 2) := by
      have := List.getElem_mem hiL
      rw [List.getElem_take] at this
      exact this
    have hLle : List.Pairwise (fun a b : BKey × RID => a.1 ≤ b.1)
        (seq.take ((maxLeafKeys + 1) / 2)) :=
      List.Pairwise.sublist (List.take_sublist _ seq) hple
    have hLlt : List.Pairwise (fun a b : BKey × RID => a.1 < b.1)
        (seq.take ((maxLeafKeys + 1) / 2)) :=
      List.Pairwise.sublist (List.take_sublist _ seq) hp
    rw [collect_bsearch_eq_filter _ _ hLle,
      filter_eq_singleton_of_pairwise_lt _ hLlt (seq[i]) hmemL]
    rfl
  · rw [if_neg hcase]
    have hige : (maxLeafKeys + 1) / 2 ≤ i := by
      by_contra hcon
      rw [hsep] at hcase
      exact hcase (List.pairwise_iff_getElem.mp hp i _ hi hsepb (by omega))
    obtain ⟨j, rfl⟩ : ∃ j, i = (maxLeafKeys + 1) / 2 + j := ⟨i - (maxLeafKeys + 1) / 2, by omega⟩
    have hjR : j < (seq.drop ((maxLeafKeys + 1) / 2)).length := by
      rw [List.length_drop]
      omega
    have hmemR : seq[(maxLeafKeys + 1) / 2 + j] ∈ seq.drop ((maxLeafKeys + 1) / 2) := by
      have := List.getElem_mem hjR
      rw [List.getElem_drop] at this
      exact this
    have hRle : List.Pairwise (fun a b : BKey × RID => a.1 ≤ b.1)
        (seq.drop ((maxLeafKeys + 1) / 2)) :=
      List.Pairwise.sublist (List.drop_sublist _ seq) hple
    have hRlt : List.Pairwise (fun a b : BKey × RID => a.1 < b.1)
        (seq.drop ((maxLeafKeys + 1) / 2)) :=
      List.Pairwise.sublist (List.drop_sublist _ seq) hp
    rw [collect_bsearch_eq_filter _ _ hRle,
      filter_eq_singleton_of_pairwise_lt _ hRlt _ hmemR]
    rfl

/-- C5 (amended): after inserting `maxLeafKeys + 1` entries with strictly
ascending keys into an empty index, the root becomes an Internal page with
exactly one separator key; the separator equals the first key of the right
half — the `(⌊(maxLeafKeys+1)/2⌋ + 1)`-th inserted key (1-based), not the
`⌈(maxLeafKeys+1)/2⌉`-th — and every inserted key's search still returns the
RID it was inserted with. -/
theorem btree_root_split_separator (seq : List (BKey × RID))
    (hlen : seq.length = maxLeafKeys + 1) (hasc : strictAscKeys seq = true) :
    ∃ idx, btBuild btEmpty seq = some idx ∧
      idx.pages.get? idx.rootPageID =
        some (.internal [0, 1] [(seq.getD ((maxLeafKeys + 1) / 2) (0, ⟨0, 0⟩)).1]) ∧
      ∀ e ∈ seq, btSearch idx e.1 = some [e.2] :=
  btSplitAscendingSpec seq hlen hasc

set_option maxRecDepth 40000 in
/-- Witness for C5 at keys 1..256: the root's single separator is 129 (the
129th inserted key) and searching 129 returns its RID. -/
theorem btree_root_split_separator_witness :
    seqC5.length = maxLeafKeys + 1 ∧ strictAscKeys seqC5 = true ∧
    ∃ idx, btBuild btEmpty seqC5 = some idx ∧
      idx.pages.get? idx.rootPageID = some (.internal [0, 1] [(129 : Int)]) ∧
      btSearch idx 129 = some [RID.mk 129 128] := by
  have h1 : seqC5.length = maxLeafKeys + 1 := by rfl
  have h2 : strictAscKeys seqC5 = true := by decide
  refine ⟨h1, h2, ?_⟩
  obtain ⟨idx, hb, hroot, hsearch⟩ := btree_root_split_separator seqC5 h1 h2
  refine ⟨idx, hb, ?_, ?_⟩
  · rw [hroot]
    rfl
  · have hmem : ((129 : Int), RID.mk 129 128) ∈ seqC5 := by decide
    exact hsearch ((129 : Int), RID.mk 129 128) hmem

set_option maxRecDepth 40000 in
/-- Counterexample to C5 as stated: for keys 1..256 the separator stored in
the root is 129, while the `⌈(maxLeafKeys+1)/2⌉`-th (i.e. 128th, 1-based)
inserted key named by the claim is 128. -/
theorem btree_split_separator_counterexample :
    (∃ idx, btBuild btEmpty seqC5 = some idx ∧
        idx.pages.get? idx.rootPageID = some (.internal [0, 1] [(129 : Int)])) ∧
    (seqC5.getD ((maxLeafKeys + 1 + 1) / 2 - 1) (0, ⟨0, 0⟩)).1 = 128 ∧
    (129 : Int) ≠ 128 := by
  refine ⟨?_, by rfl, by decide⟩
  obtain ⟨idx, hb, hroot, -⟩ := btSplitAscendingSpec seqC5 rfl (by decide)
  refine ⟨idx, hb, ?_⟩
  rw [hroot]
  rfl

end GoDB
